import Mathlib

/-!
Verification of the rasiin_design Frappe customizations: notification rule
evaluation, SMS retry client, cash-flow report processing, overdue-invoice
scanning, and mobile-number normalization.  Python functions are shallowly
embedded as Lean definitions; database and framework calls are modelled as
explicit environment records.
-/

namespace Rasiin

/-! ## Basic string machinery

Python compares strings lexicographically by code point; `lexLe` mirrors
that on the underlying character lists.  `patInside` mirrors substring
tests (SQL `LIKE '%pat%'`), and `truthyStr` mirrors Python truthiness of
an optional string field (`None` and `""` are falsy). -/

def lexLe : List Char → List Char → Bool
  | [], _ => true
  | _ :: _, [] => false
  | a :: as, b :: bs =>
    if a.toNat < b.toNat then true
    else if b.toNat < a.toNat then false
    else lexLe as bs

def strLe (s t : String) : Bool :=
  lexLe s.data t.data

def insertSorted (x : String) : List String → List String
  | [] => [x]
  | y :: ys => if strLe x y then x :: y :: ys else y :: insertSorted x ys

def sortStrings (l : List String) : List String :=
  l.foldr insertSorted []

def patInside (pat : List Char) : List Char → Bool
  | [] => pat.isEmpty
  | c :: rest => pat.isPrefixOf (c :: rest) || patInside pat rest

def strContains (s pat : String) : Bool :=
  patInside pat.data s.data

def truthyStr : Option String → Bool
  | none => false
  | some s => !(s == "")

/-- Python `l.append`-into-`set()` semantics: add an element if absent. -/
def setAdd (l : List String) (x : String) : List String :=
  if x ∈ l then l else l ++ [x]

/-! ## custom_notification.get_recipients (claim C1)

From `custom_notification.py` lines 283-337.  The database is modelled by
`UserDB`: `userExists`/`userEnabled` stand for `frappe.db.exists("User", u)`
and `frappe.db.get_value("User", u, "enabled")`, and `roleUsers r` for the
`parent` column of the `Has Role` query for role `r`. -/

structure RecipientRule where
  recipient_type : Option String
  recipient_value : Option String
  deriving DecidableEq

structure UserDB where
  userExists : String → Bool
  userEnabled : String → Bool
  roleUsers : String → List String

def addUserRule (db : UserDB) (acc : List String) (v : String) : List String :=
  if db.userExists v then
    if db.userEnabled v then setAdd acc v else acc
  else acc

def addRoleUsers (db : UserDB) (acc : List String) : List String → List String
  | [] => acc
  | u :: us =>
    addRoleUsers db
      (if !(u == "") && db.userExists u && db.userEnabled u then setAdd acc u else acc) us

def applyRule (db : UserDB) (acc : List String) (r : RecipientRule) : List String :=
  if truthyStr r.recipient_type && truthyStr r.recipient_value then
    if r.recipient_type.getD "" = "User" then
      addUserRule db acc (r.recipient_value.getD "")
    else if r.recipient_type.getD "" = "Role" then
      addRoleUsers db acc (db.roleUsers (r.recipient_value.getD ""))
    else acc
  else acc

def get_recipients (db : UserDB) (rules : List RecipientRule) : List String :=
  sortStrings ((rules.foldl (applyRule db) []).filter (fun u => !(u == "")))

/-! ## custom_notification.check_condition (claim C9)

From `custom_notification.py` lines 196-281.  JSON values are modelled by
`JVal`; Python-level behaviour that is outside the file (`json.loads`,
`frappe.safe_eval`, the semantics of `operator.gt` on dynamic values,
Python `==`) is provided by a `CondEnv` oracle, with `Except Unit` marking
a raised exception.  `evaluate_expression_condition` catches its own
exceptions and returns `False`; `evaluate_dict_condition` catches only
`json.JSONDecodeError` (parse failure); everything else is caught by the
outer handler in `check_condition`, which returns `False`. -/

inductive JVal where
  | jnull
  | jbool (b : Bool)
  | jnum (q : ℚ)
  | jstr (s : String)
  | jarr (xs : List JVal)

structure CondEnv where
  docGet : String → JVal
  jsonParse : String → Option (List (String × JVal))
  opApply : String → JVal → JVal → Except Unit Bool
  pyEq : JVal → JVal → Bool
  safeEval : String → Except Unit Bool

/-- `field.replace('doc.', '')`: remove every occurrence of `"doc."`. -/
def replaceDocAux : List Char → List Char
  | 'd' :: 'o' :: 'c' :: '.' :: rest => replaceDocAux rest
  | c :: rest => c :: replaceDocAux rest
  | [] => []

def stripDoc (s : String) : String :=
  ⟨replaceDocAux s.data⟩

/-- Python `str.strip()` (whitespace at both ends). -/
def stripStr (s : String) : String :=
  ⟨((s.data.dropWhile (·.isWhitespace)).reverse.dropWhile (·.isWhitespace)).reverse⟩

def startsWithStr (p s : String) : Bool :=
  p.data.isPrefixOf s.data

def endsWithStr (p s : String) : Bool :=
  p.data.reverse.isPrefixOf s.data.reverse

/-- The keys of `operator_map` in `evaluate_dict_condition`. -/
def knownOps : List String :=
  [">", ">=", "<", "<=", "==", "!=", "in", "not in"]

/-- One `field, expected_value` pair of the JSON condition dict. -/
def evalPair (env : CondEnv) (field : String) (expected : JVal) : Except Unit Bool :=
  let actual := env.docGet (stripDoc field)
  match expected with
  | .jarr [opv, cv0] =>
    let cv : JVal :=
      match cv0 with
      | .jstr s => if startsWithStr "doc." s then env.docGet (stripDoc s) else .jstr s
      | v => v
    match opv with
    | .jstr op =>
      if op ∈ knownOps then
        match env.opApply op actual cv with
        | .ok b => .ok b
        | .error e => .error e
      else .ok false
    | _ => .ok false
  | _ => .ok (env.pyEq actual expected)

def evalPairs (env : CondEnv) : List (String × JVal) → Except Unit Bool
  | [] => .ok true
  | (f, ev) :: rest =>
    match evalPair env f ev with
    | .error e => .error e
    | .ok false => .ok false
    | .ok true => evalPairs env rest

def evaluate_dict_condition (env : CondEnv) (s : String) : Except Unit Bool :=
  match env.jsonParse s with
  | none => .ok false
  | some pairs => evalPairs env pairs

def evaluate_expression_condition (env : CondEnv) (s : String) : Bool :=
  match env.safeEval s with
  | .ok b => b
  | .error _ => false

/-- The body of the `try` block in `check_condition`: brace-delimited
strings go to the JSON evaluator, everything else to the expression
evaluator. -/
def checkBody (env : CondEnv) (s : String) : Except Unit Bool :=
  if startsWithStr "\x7b" s && endsWithStr "\x7d" s then evaluate_dict_condition env s
  else .ok (evaluate_expression_condition env s)

def check_condition (env : CondEnv) (cond : Option String) : Except Unit Bool :=
  if !(truthyStr cond) || stripStr (cond.getD "") == "" then .ok true
  else
    match checkBody env (stripStr (cond.getD "")) with
    | .ok b => .ok b
    | .error _ => .ok false

/-! ## custom_notification.evaluate_custom_notifications (claim C4)

From `custom_notification.py` lines 71-150.  Only the control flow is at
stake: the event mapping, the early returns, and which rules produce
sends.  Framework queries are oracles in `NotifEnv`: `getRules ev` is the
`frappe.get_all("Custom Notification", ...)` result for `send_on = ev`,
`checkCond` the evaluated condition, `hasChanges` the result of
`has_actual_changes`, and `recipientsOf` the `get_recipients` result for a
rule.  The trace records whether the rules table was queried and the
`(rule, user)` pairs passed to `send_notification`. -/

structure NotifRule where
  name : String
  condition : Option String
  channel : String

structure NotifEnv where
  getRules : String → List NotifRule
  checkCond : Option String → Bool
  hasChanges : Bool
  recipientsOf : String → List String

structure NotifDoc where
  docstatus : Int
  beforeSave : Option Int

structure EvalTrace where
  queriedRules : Bool
  sends : List (String × String)
  deriving DecidableEq

def event_map (method : String) : Option String :=
  if method = "on_update" then some "Save"
  else if method = "on_submit" then some "Submit"
  else if method = "on_cancel" then some "Cancel"
  else none

def ruleSends (env : NotifEnv) (d : NotifDoc) (ev : String) (cn : NotifRule) :
    List (String × String) :=
  if !(env.checkCond cn.condition) then []
  else if ev = "Save" && d.beforeSave.isSome && !env.hasChanges then []
  else (env.recipientsOf cn.name).map (fun u => (cn.name, u))

def evaluate_custom_notifications (env : NotifEnv) (d : NotifDoc) (method : String) :
    EvalTrace :=
  match event_map method with
  | none => ⟨false, []⟩
  | some ev =>
    if ev = "Save" && d.beforeSave.isSome && !(d.docstatus == d.beforeSave.getD 0) then
      ⟨false, []⟩
    else
      ⟨true, (env.getRules ev).flatMap (ruleSends env d ev)⟩

/-! ## Notification delivery traces (claims C6 and C8)

`custom_notification.send_notification` (lines 341-404) and
`notification_utils.send_single_notification` (lines 93-124) are embedded
as functions producing the ordered list of framework side effects they
perform.  `Action.publish` records the `after_commit` flag passed to
`frappe.publish_realtime`. -/

inductive Action where
  | insertLog (user subject : String)
  | publish (afterCommit : Bool)
  | email (user : String)
  | sms (mobile : String)
  | logErr
  deriving DecidableEq

structure SendEnv where
  smsEnabled : Bool
  mobileNo : String → Option String
  validUser : String → Bool

/-- `custom_notification.send_notification`: insert the Notification Log,
publish the realtime event with `after_commit=True`, then email on the
`"Email"` channel or SMS on the `"Sms"` channel (the latter only when SMS
Settings enable SMS and the user has a truthy `mobile_no`). -/
def send_notification (env : SendEnv) (user subject _message channel : String) :
    List Action :=
  [Action.insertLog user subject, Action.publish true]
  ++ (if channel = "Email" then [Action.email user]
      else if channel = "Sms" then
        if env.smsEnabled then
          match env.mobileNo user with
          | some m => if m = "" then [Action.logErr] else [Action.sms m]
          | none => [Action.logErr]
        else []
      else [])

/-- `notification_utils.send_single_notification`: validate the user, insert
the Notification Log, publish with `after_commit=True`, then email when the
channel is `"Email"`.  Returns the action trace and the Python return value. -/
def send_single_notification (env : SendEnv) (user subject _message channel : String) :
    List Action × Bool :=
  if !(env.validUser user) then ([], false)
  else
    ([Action.insertLog user subject, Action.publish true]
      ++ (if channel = "Email" then [Action.email user] else []), true)

/-- Every `publish` action carries `after_commit = true`. -/
def publishAfterCommitOnly : List Action → Bool
  | [] => true
  | Action.publish ac :: rest => ac && publishAfterCommitOnly rest
  | _ :: rest => publishAfterCommitOnly rest

/-- Every `publish` action is preceded by an `insertLog` action
(`seen` records whether an insert has already occurred). -/
def insertBeforePublish (seen : Bool) : List Action → Bool
  | [] => true
  | Action.insertLog _ _ :: rest => insertBeforePublish true rest
  | Action.publish _ :: rest => seen && insertBeforePublish seen rest
  | _ :: rest => insertBeforePublish seen rest

def hasEmail : List Action → Bool
  | [] => false
  | Action.email _ :: _ => true
  | _ :: rest => hasEmail rest

def hasSms : List Action → Bool
  | [] => false
  | Action.sms _ :: _ => true
  | _ :: rest => hasSms rest

/-! ## hormuud_sms_service._post_with_retry (claim C2)

From `hormuud_sms_service.py` lines 110-161.  The network is an oracle
`attempts : Nat → Except Unit ApiResp`: `.error` is a
`requests.RequestException` during the POST, `.ok r` an HTTP response with
status `r.status` and body `r.body`.  `JsonBody` records what
`response.json()` does on the body: `.obj d` is a JSON object, `.nonObj`
a JSON value that is not an object (a list, number, ...), and
`.malformed` a body that is not JSON at all, on which `response.json()`
raises.  That `JSONDecodeError` is a subclass of `RequestException` (in
requests >= 2.27), so inside the 200 branch it is caught by the same
`except` as a network failure, `last_response` is never set, and the loop
sleeps and re-POSTs — unlike a parseable-but-invalid body, which sets
`last_response`, breaks, and is returned after the loop.  The embedding
still collapses observationally identical paths: a 200 with a parseable
body terminates the loop immediately whether it is valid (returned at
once) or invalid (break, then returned), and a non-200 status either
raises in `raise_for_status` (4xx/5xx) or falls through, proceeding to
the next attempt either way. -/

inductive JsonBody where
  | obj (d : List (String × String))
  | nonObj
  | malformed
  deriving DecidableEq

structure ApiResp where
  status : Nat
  body : JsonBody
  deriving DecidableEq

def jget (d : List (String × String)) (k : String) : Option String :=
  (d.find? (fun p => p.1 == k)).map (fun p => p.2)

/-- `_is_valid_response` on the value returned by `response.json()`
(`.malformed` never reaches it in the source, since `json()` raises
first; the `isinstance(..., dict)` check makes every non-object false). -/
def _is_valid_response : JsonBody → Bool
  | .obj d => jget d "ResponseCode" == some "200"
  | _ => false

/-- Whether `response.json()` returns (rather than raising). -/
def parsedBody : JsonBody → Bool
  | .malformed => false
  | _ => true

structure RetryOutcome where
  result : Except Unit ApiResp
  posts : Nat
  sleeps : List Nat

/-- An attempt outcome that is an HTTP-200 response (any body). -/
def is200 : Except Unit ApiResp → Bool
  | .ok r => r.status == 200
  | .error _ => false

/-- An attempt outcome that is an HTTP-200 response whose body parses as
JSON — the outcomes on which the source's loop stops. -/
def okParsed200 : Except Unit ApiResp → Bool
  | .ok r => r.status == 200 && parsedBody r.body
  | .error _ => false

/-- The retry loop from attempt index `i` with `fuel` attempts remaining
(`fuel = retries + 1 - i`); `sleeps` lists the `min(2 ** attempt, 5)`
waits actually performed, in order.  A 200 whose body fails to parse
takes the same continue-path as a request exception. -/
def retryGo (attempts : Nat → Except Unit ApiResp) : Nat → Nat → RetryOutcome
  | _, 0 => ⟨.error (), 0, []⟩
  | i, fuel + 1 =>
    match attempts i with
    | .ok r =>
      if r.status = 200 then
        if parsedBody r.body then ⟨.ok r, 1, []⟩
        else if fuel = 0 then ⟨.error (), 1, []⟩
        else ⟨(retryGo attempts (i + 1) fuel).result,
              (retryGo attempts (i + 1) fuel).posts + 1,
              Nat.min (2 ^ i) 5 :: (retryGo attempts (i + 1) fuel).sleeps⟩
      else if fuel = 0 then ⟨.error (), 1, []⟩
      else ⟨(retryGo attempts (i + 1) fuel).result,
            (retryGo attempts (i + 1) fuel).posts + 1,
            Nat.min (2 ^ i) 5 :: (retryGo attempts (i + 1) fuel).sleeps⟩
    | .error _ =>
      if fuel = 0 then ⟨.error (), 1, []⟩
      else ⟨(retryGo attempts (i + 1) fuel).result,
            (retryGo attempts (i + 1) fuel).posts + 1,
            Nat.min (2 ^ i) 5 :: (retryGo attempts (i + 1) fuel).sleeps⟩

def _post_with_retry (attempts : Nat → Except Unit ApiResp) (retries : Nat) :
    RetryOutcome :=
  retryGo attempts 0 (retries + 1)

/-! ## sms_api._clean_mobile_number (claim C10)

From `api/sms_api.py` lines 276-301.  The input is `Option String`
(`None` and `""` are falsy); `str.isdigit` is modelled by `Char.isDigit`. -/

def digitsOf (s : String) : String :=
  ⟨s.data.filter (·.isDigit)⟩

/-- The branch cascade of `_clean_mobile_number` on the digit-only
`cleaned` string (every branch of the Python function returns, so the
cascade is a function of `cleaned` alone). -/
def normalizeDigits (cleaned : String) : String :=
  if startsWithStr "252" cleaned then cleaned
  else if startsWithStr "0" cleaned then "252" ++ ⟨cleaned.data.drop 1⟩
  else if cleaned.length = 9 then "252" ++ cleaned
  else if cleaned.length = 12 && startsWithStr "252" cleaned then cleaned
  else cleaned

def _clean_mobile_number (number : Option String) : Option String :=
  if !(truthyStr number) then none
  else some (normalizeDigits (digitsOf (number.getD "")))

/-! ## daily_cash_flow report (claims C3 and C7)

From `report/daily_cash_flow/daily_cash_flow.py`.  `get_conditions`
(lines 192-211) and the opening-balance query builder (lines 214-252) are
embedded as the string builders they are; `get_data` passes only the
account names as bound `%s` parameters.  `process_data` (lines 255-322) is
embedded over exact rationals (`flt` is the identity on them). -/

structure CFFilters where
  from_date : Option String
  to_date : Option String
  voucher_type : Option String
  party : Option String
  mode_of_payment : Option String

def joinSep (sep : String) : List String → String
  | [] => ""
  | [x] => x
  | x :: xs => x ++ sep ++ joinSep sep xs

/-- The `conditions` list built by `get_conditions`. -/
def cfConds (f : CFFilters) : List String :=
  (if truthyStr f.from_date then ["posting_date >= '" ++ f.from_date.getD "" ++ "'"] else [])
  ++ (if truthyStr f.to_date then ["posting_date <= '" ++ f.to_date.getD "" ++ "'"] else [])
  ++ (if truthyStr f.voucher_type then ["voucher_type = '" ++ f.voucher_type.getD "" ++ "'"] else [])
  ++ (if truthyStr f.party then ["party = '" ++ f.party.getD "" ++ "'"] else [])
  ++ (if truthyStr f.mode_of_payment then ["(voucher_type != 'Payment Entry' OR 1=1)"] else [])

def get_conditions (f : CFFilters) : String :=
  if !((cfConds f).isEmpty) then " AND " ++ joinSep " AND " (cfConds f) else ""

/-- The parameter list `get_data` passes to `frappe.db.sql` for the main
query: exactly the cash/bank account names, one per `%s` placeholder. -/
def get_data_params (accounts : List String) : List String :=
  accounts

/-- The `conditions` list built inside `get_opening_balance` (always
non-empty: the invoice exclusion is appended unconditionally). -/
def obConds (f : CFFilters) : List String :=
  (if truthyStr f.voucher_type then ["voucher_type = '" ++ f.voucher_type.getD "" ++ "'"] else [])
  ++ (if truthyStr f.party then ["party = '" ++ f.party.getD "" ++ "'"] else [])
  ++ ["voucher_type NOT IN ('Sales Invoice', 'Purchase Invoice')"]

/-- The SQL text of the opening-balance query built by
`get_opening_balance`: `voucher_type`/`party` filter values and
`from_date` are spliced into the text; accounts stay `%s` placeholders
(whitespace is collapsed relative to the Python source). -/
def get_opening_balance_query (f : CFFilters) (accounts : List String) : String :=
  "SELECT SUM(debit - credit) as opening_balance FROM `tabGL Entry`"
  ++ " WHERE docstatus = 1 AND is_cancelled = 0 AND posting_date < '"
  ++ f.from_date.getD "" ++ "' AND account IN ("
  ++ joinSep ", " (accounts.map (fun _ => "%s")) ++ ") AND "
  ++ joinSep " AND " (obConds f)

/-- The parameter list `get_opening_balance` passes to `frappe.db.sql`. -/
def get_opening_balance_params (accounts : List String) : List String :=
  accounts

structure GLRow where
  posting_date : String
  voucher_type : String
  voucher_no : String
  party : Option String
  debit : ℚ
  credit : ℚ
  against : Option String
  remarks : Option String
  deriving DecidableEq

structure PRow where
  posting_date : String
  voucher_type : String
  voucher_no : String
  party : String
  debit : ℚ
  credit : ℚ
  balance : ℚ
  mode_of_payment : Option String
  custom_refrence : String
  remarks : String
  deriving DecidableEq

structure ReportEnv where
  peMop : String → Option String
  siRef : String → Option String

def get_mode_of_payment (env : ReportEnv) (vt vno : String) : Option String :=
  if vt = "Payment Entry" && !(vno == "") then env.peMop vno else some ""

def get_custom_refrence (env : ReportEnv) (vt vno : String) : String :=
  if vt = "Sales Invoice" && !(vno == "") then (env.siRef vno).getD "" else ""

/-- Python `a or b or ""` over optional strings. -/
def orStr (a b : Option String) : String :=
  if truthyStr a then a.getD "" else if truthyStr b then b.getD "" else ""

def mkRow (env : ReportEnv) (r : GLRow) (bal : ℚ) : PRow :=
  { posting_date := r.posting_date
    voucher_type := r.voucher_type
    voucher_no := r.voucher_no
    party := (r.party).getD ""
    debit := r.debit
    credit := r.credit
    balance := bal
    mode_of_payment := get_mode_of_payment env r.voucher_type r.voucher_no
    custom_refrence := if r.voucher_type = "Sales Invoice" && !(r.voucher_no == "")
      then get_custom_refrence env r.voucher_type r.voucher_no else ""
    remarks := orStr r.remarks r.against }

/-- The `continue` guard of the `process_data` loop: a row is skipped when
a mode-of-payment filter is set and the row's looked-up mode of payment
differs from it. -/
def skipRow (env : ReportEnv) (f : CFFilters) (r : GLRow) : Bool :=
  truthyStr f.mode_of_payment
    && !(get_mode_of_payment env r.voucher_type r.voucher_no
          == some (f.mode_of_payment.getD ""))

/-- The main loop of `process_data`: skip rows whose mode of payment does
not match the filter, otherwise update the running balance and append the
processed row.  Returns the rows and the final running balance. -/
def processLoop (env : ReportEnv) (f : CFFilters) : List GLRow → ℚ → List PRow × ℚ
  | [], rb => ([], rb)
  | r :: rs, rb =>
    if skipRow env f r then
      processLoop env f rs rb
    else
      (mkRow env r (rb + r.debit - r.credit)
          :: (processLoop env f rs (rb + r.debit - r.credit)).1,
        (processLoop env f rs (rb + r.debit - r.credit)).2)

/-- The running-balance relation between consecutive report rows. -/
def balChain (p q : PRow) : Prop :=
  q.balance = p.balance + q.debit - q.credit

def openingRow (f : CFFilters) (opening : ℚ) : PRow :=
  { posting_date := f.from_date.getD ""
    voucher_type := "Opening Balance"
    voucher_no := ""
    party := ""
    debit := 0
    credit := 0
    balance := opening
    mode_of_payment := some ""
    custom_refrence := ""
    remarks := "Opening Balance" }

def closingRow (f : CFFilters) (bal : ℚ) (lastDate : String) : PRow :=
  { posting_date := if truthyStr f.to_date then f.to_date.getD "" else lastDate
    voucher_type := "Closing Balance"
    voucher_no := ""
    party := ""
    debit := 0
    credit := 0
    balance := bal
    mode_of_payment := some ""
    custom_refrence := ""
    remarks := "Closing Balance" }

def process_data (env : ReportEnv) (data : List GLRow) (opening : ℚ) (f : CFFilters) :
    List PRow :=
  match ((if truthyStr f.from_date then [openingRow f opening] else [])
      ++ (processLoop env f data opening).1).getLast? with
  | none =>
    (if truthyStr f.from_date then [openingRow f opening] else [])
      ++ (processLoop env f data opening).1
  | some lr =>
    ((if truthyStr f.from_date then [openingRow f opening] else [])
        ++ (processLoop env f data opening).1)
      ++ [closingRow f (processLoop env f data opening).2 lr.posting_date]

def isTxnRow (p : PRow) : Bool :=
  !(p.voucher_type == "Opening Balance") && !(p.voucher_type == "Closing Balance")

/-! ## tasks.check_and_notify_overdue_invoices (claim C5)

From `tasks.py` lines 13-79 and `notification_utils.py` lines 77-190.
The Sales Invoice table and the Notification Log table are explicit data;
`has_been_notified_ever` embeds the `LIKE '%pat%'` query via `strContains`.
A run walks the invoices selected by the SQL `WHERE` clause and, for each
not-yet-notified one, inserts one Notification Log per valid configured
user (`send_notification_to_users`); invoices whose send inserts no log
(no valid users) are not counted as notified. -/

structure Invoice where
  name : String
  customer : String
  due_date : Int
  outstanding_amount : ℚ
  docstatus : Int
  deriving DecidableEq

structure NLog where
  document_type : String
  document_name : String
  subject : String
  deriving DecidableEq

def overdueSelect (today : Int) (tbl : List Invoice) : List Invoice :=
  tbl.filter (fun i =>
    decide (i.docstatus = 1) && decide (i.outstanding_amount > 0) && decide (i.due_date < today))

def has_been_notified_ever (logs : List NLog) (dt dn pat : String) : Bool :=
  logs.any (fun l => l.document_type == dt && l.document_name == dn && strContains l.subject pat)

structure TaskEnv where
  users : List String
  validUser : String → Bool
  fmtAmount : Invoice → String
  fmtDate : Int → String

def overdueSubject (env : TaskEnv) (inv : Invoice) : String :=
  "🔔 Overdue Invoice: " ++ inv.name ++ " - " ++ env.fmtAmount inv
  ++ " due " ++ env.fmtDate inv.due_date

/-- The Notification Log rows inserted by `send_overdue_notification` via
`send_notification_to_users`: one per valid user. -/
def overdueLogs (env : TaskEnv) (inv : Invoice) : List NLog :=
  (env.users.filter env.validUser).map
    (fun _ => ⟨"Sales Invoice", inv.name, overdueSubject env inv⟩)

/-- The per-invoice loop of `check_and_notify_overdue_invoices`: returns
the final log table and the names of invoices for which at least one log
was inserted in this run. -/
def overdueGo (env : TaskEnv) : List Invoice → List NLog → List NLog × List String
  | [], st => (st, [])
  | inv :: rest, st =>
    if has_been_notified_ever st "Sales Invoice" inv.name "Overdue" then
      overdueGo env rest st
    else
      ((overdueGo env rest (st ++ overdueLogs env inv)).1,
        if (overdueLogs env inv).isEmpty
          then (overdueGo env rest (st ++ overdueLogs env inv)).2
          else inv.name :: (overdueGo env rest (st ++ overdueLogs env inv)).2)

def check_and_notify_overdue_invoices (env : TaskEnv) (today : Int)
    (tbl : List Invoice) (st : List NLog) : List NLog × List String :=
  overdueGo env (overdueSelect today tbl) st

/-- A sequence of scheduler runs, each with its own environment, date and
invoice table, threading the Notification Log state through. -/
def overdueRuns : List (TaskEnv × Int × List Invoice) → List NLog → List NLog × List String
  | [], st => (st, [])
  | (env, d, tbl) :: rest, st =>
    ((overdueRuns rest (check_and_notify_overdue_invoices env d tbl st).1).1,
      (check_and_notify_overdue_invoices env d tbl st).2
        ++ (overdueRuns rest (check_and_notify_overdue_invoices env d tbl st).1).2)

/-! ## Lemmas: lexicographic order and insertion sort -/

theorem lexLe_refl (l : List Char) : lexLe l l = true := by
  induction l with
  | nil => rfl
  | cons a as ih => simp [lexLe, ih]

theorem lexLe_total : ∀ as bs : List Char, lexLe as bs = true ∨ lexLe bs as = true
  | [], _ => Or.inl rfl
  | _ :: _, [] => Or.inr rfl
  | a :: as, b :: bs => by
    rcases Nat.lt_trichotomy a.toNat b.toNat with h | h | h
    · left; simp [lexLe, h]
    · rcases lexLe_total as bs with ih | ih
      · left; simp [lexLe, h, ih]
      · right; simp [lexLe, h, ih]
    · right; simp [lexLe, h]

theorem lexLe_trans : ∀ as bs cs : List Char,
    lexLe as bs = true → lexLe bs cs = true → lexLe as cs = true
  | [], _, _, _, _ => rfl
  | _ :: _, [], _, h1, _ => by simp [lexLe] at h1
  | _ :: _, _ :: _, [], _, h2 => by simp [lexLe] at h2
  | a :: as, b :: bs, c :: cs, h1, h2 => by
    simp only [lexLe] at h1 h2 ⊢
    by_cases hab : a.toNat < b.toNat
    · by_cases hbc : b.toNat < c.toNat
      · simp [Nat.lt_trans hab hbc]
      · by_cases hcb : c.toNat < b.toNat
        · rw [if_neg hbc, if_pos hcb] at h2; exact absurd h2 (by simp)
        · have hbc' : b.toNat = c.toNat :=
            Nat.le_antisymm (Nat.le_of_not_lt hcb) (Nat.le_of_not_lt hbc)
          simp [hbc' ▸ hab]
    · by_cases hba : b.toNat < a.toNat
      · rw [if_neg hab, if_pos hba] at h1; exact absurd h1 (by simp)
      · have hab' : a.toNat = b.toNat :=
          Nat.le_antisymm (Nat.le_of_not_lt hba) (Nat.le_of_not_lt hab)
        rw [if_neg hab, if_neg hba] at h1
        by_cases hbc : b.toNat < c.toNat
        · simp [hab' ▸ hbc]
        · by_cases hcb : c.toNat < b.toNat
          · rw [if_neg hbc, if_pos hcb] at h2; exact absurd h2 (by simp)
          · have hbc' : b.toNat = c.toNat :=
              Nat.le_antisymm (Nat.le_of_not_lt hcb) (Nat.le_of_not_lt hbc)
            rw [if_neg hbc, if_neg hcb] at h2
            have ih := lexLe_trans as bs cs h1 h2
            simp [hab'.trans hbc', ih]

theorem strLe_total (a b : String) : strLe a b = true ∨ strLe b a = true :=
  lexLe_total a.data b.data

theorem strLe_trans {a b c : String} (h1 : strLe a b = true) (h2 : strLe b c = true) :
    strLe a c = true :=
  lexLe_trans a.data b.data c.data h1 h2

theorem insertSorted_perm (x : String) :
    ∀ l : List String, (insertSorted x l).Perm (x :: l)
  | [] => List.Perm.refl _
  | y :: ys => by
    simp only [insertSorted]
    by_cases h : strLe x y = true
    · rw [if_pos h]
    · rw [if_neg h]
      exact (List.Perm.cons y (insertSorted_perm x ys)).trans (List.Perm.swap x y ys)

theorem sortStrings_perm : ∀ l : List String, (sortStrings l).Perm l
  | [] => List.Perm.refl _
  | x :: xs => by
    simpa [sortStrings] using
      (insertSorted_perm x (sortStrings xs)).trans (List.Perm.cons x (sortStrings_perm xs))

theorem mem_sortStrings {u : String} {l : List String} :
    u ∈ sortStrings l ↔ u ∈ l :=
  (sortStrings_perm l).mem_iff

theorem insertSorted_sorted (x : String) :
    ∀ l : List String, List.Sorted (fun a b => strLe a b = true) l →
      List.Sorted (fun a b => strLe a b = true) (insertSorted x l)
  | [], _ => List.sorted_singleton x
  | y :: ys, h => by
    rcases List.sorted_cons.mp h with ⟨hy, hys⟩
    simp only [insertSorted]
    by_cases hxy : strLe x y = true
    · rw [if_pos hxy]
      refine List.sorted_cons.mpr ⟨?_, h⟩
      intro z hz
      rcases List.mem_cons.mp hz with rfl | hz
      · exact hxy
      · exact strLe_trans hxy (hy z hz)
    · rw [if_neg hxy]
      have hyx : strLe y x = true := (strLe_total x y).resolve_left hxy
      refine List.sorted_cons.mpr ⟨?_, insertSorted_sorted x ys hys⟩
      intro z hz
      rcases (insertSorted_perm x ys).mem_iff.mp hz with hz'
      rcases List.mem_cons.mp hz' with rfl | hz''
      · exact hyx
      · exact hy z hz''

theorem sortStrings_sorted : ∀ l : List String,
    List.Sorted (fun a b => strLe a b = true) (sortStrings l)
  | [] => List.sorted_nil
  | x :: xs => insertSorted_sorted x (sortStrings xs) (sortStrings_sorted xs)

/-! ## Lemmas: get_recipients -/

theorem mem_setAdd {l : List String} {x u : String} :
    u ∈ setAdd l x ↔ u ∈ l ∨ u = x := by
  by_cases h : x ∈ l
  · simp only [setAdd, if_pos h]
    constructor
    · exact Or.inl
    · rintro (hu | rfl) <;> [exact hu; exact h]
  · simp [setAdd, if_neg h]

theorem setAdd_nodup {l : List String} {x : String} (h : l.Nodup) :
    (setAdd l x).Nodup := by
  by_cases hx : x ∈ l
  · simpa [setAdd, if_pos hx] using h
  · simp only [setAdd, if_neg hx]
    exact List.Nodup.append h (List.nodup_singleton x) (by simpa using hx)

/-- The invariant preserved by the recipient accumulation: every collected
user exists and is enabled. -/
def GoodAcc (db : UserDB) (l : List String) : Prop :=
  ∀ u ∈ l, db.userExists u = true ∧ db.userEnabled u = true

theorem goodAcc_setAdd {db : UserDB} {l : List String} {x : String}
    (h : GoodAcc db l) (hx : db.userExists x = true ∧ db.userEnabled x = true) :
    GoodAcc db (setAdd l x) := by
  intro u hu
  rcases mem_setAdd.mp hu with hu' | rfl
  · exact h u hu'
  · exact hx

theorem goodAcc_addUserRule {db : UserDB} {l : List String} (v : String)
    (h : GoodAcc db l) : GoodAcc db (addUserRule db l v) := by
  unfold addUserRule
  by_cases he : db.userExists v
  · by_cases hn : db.userEnabled v
    · simp only [he, hn, if_true]
      exact goodAcc_setAdd h ⟨he, hn⟩
    · simp only [he, if_true]
      rw [if_neg (by simpa using hn)]
      exact h
  · rw [if_neg (by simpa using he)]
    exact h

theorem goodAcc_addRoleUsers {db : UserDB} :
    ∀ (us : List String) (l : List String), GoodAcc db l →
      GoodAcc db (addRoleUsers db l us)
  | [], _, h => h
  | u :: us, l, h => by
    simp only [addRoleUsers]
    by_cases hc : (!(u == "") && db.userExists u && db.userEnabled u) = true
    · rw [if_pos hc]
      refine goodAcc_addRoleUsers us _ (goodAcc_setAdd h ?_)
      simp only [Bool.and_assoc, Bool.and_eq_true] at hc
      exact ⟨hc.2.1, hc.2.2⟩
    · rw [if_neg hc]
      exact goodAcc_addRoleUsers us l h

theorem goodAcc_applyRule {db : UserDB} {l : List String} (r : RecipientRule)
    (h : GoodAcc db l) : GoodAcc db (applyRule db l r) := by
  unfold applyRule
  split
  · split
    · exact goodAcc_addUserRule _ h
    · split
      · exact goodAcc_addRoleUsers _ _ h
      · exact h
  · exact h

theorem goodAcc_foldl {db : UserDB} :
    ∀ (rules : List RecipientRule) (l : List String), GoodAcc db l →
      GoodAcc db (rules.foldl (applyRule db) l)
  | [], _, h => h
  | r :: rules, l, h =>
    goodAcc_foldl rules (applyRule db l r) (goodAcc_applyRule r h)

theorem nodup_addUserRule {db : UserDB} {l : List String} (v : String)
    (h : l.Nodup) : (addUserRule db l v).Nodup := by
  unfold addUserRule
  split
  · split
    · exact setAdd_nodup h
    · exact h
  · exact h

theorem nodup_addRoleUsers {db : UserDB} :
    ∀ (us : List String) (l : List String), l.Nodup → (addRoleUsers db l us).Nodup
  | [], _, h => h
  | u :: us, l, h => by
    simp only [addRoleUsers]
    split
    · exact nodup_addRoleUsers us _ (setAdd_nodup h)
    · exact nodup_addRoleUsers us l h

theorem nodup_applyRule {db : UserDB} {l : List String} (r : RecipientRule)
    (h : l.Nodup) : (applyRule db l r).Nodup := by
  unfold applyRule
  split
  · split
    · exact nodup_addUserRule _ h
    · split
      · exact nodup_addRoleUsers _ _ h
      · exact h
  · exact h

theorem nodup_foldl {db : UserDB} :
    ∀ (rules : List RecipientRule) (l : List String), l.Nodup →
      (rules.foldl (applyRule db) l).Nodup
  | [], _, h => h
  | r :: rules, l, h => nodup_foldl rules (applyRule db l r) (nodup_applyRule r h)

theorem applyRule_missing {db : UserDB} {l : List String} {r : RecipientRule}
    (h : truthyStr r.recipient_type = false ∨ truthyStr r.recipient_value = false) :
    applyRule db l r = l := by
  unfold applyRule
  rcases h with h | h <;> simp [h]

/-- C1: for every list of recipient rules and every database state,
`get_recipients` returns a list sorted by code-point order and free of
duplicates (a user matched by several rules appears once), every returned
user exists and is enabled, and a rule with a missing (falsy)
`recipient_type` or `recipient_value` contributes nothing. -/
theorem get_recipients_spec (db : UserDB) (rules : List RecipientRule) :
    List.Sorted (fun a b => strLe a b = true) (get_recipients db rules)
    ∧ (get_recipients db rules).Nodup
    ∧ (∀ u ∈ get_recipients db rules,
        db.userExists u = true ∧ db.userEnabled u = true)
    ∧ (∀ r : RecipientRule,
        truthyStr r.recipient_type = false ∨ truthyStr r.recipient_value = false →
        get_recipients db (r :: rules) = get_recipients db rules) := by
  refine ⟨sortStrings_sorted _, ?_, ?_, ?_⟩
  · exact ((sortStrings_perm _).nodup_iff).mpr
      ((nodup_foldl rules [] List.nodup_nil).filter _)
  · intro u hu
    have hu' := List.mem_filter.mp (mem_sortStrings.mp hu)
    exact goodAcc_foldl rules [] (by intro v hv; cases hv) u hu'.1
  · intro r h
    simp [get_recipients, List.foldl_cons, applyRule_missing h]

/-- Witness for C1 at a concrete database and rule list. -/
theorem get_recipients_spec_witness :
    (truthyStr (none : Option String) = false ∨ truthyStr (some "z") = false)
    ∧ get_recipients ⟨fun u => u == "a@x", fun _ => true, fun _ => ["a@x"]⟩
        (⟨none, some "z"⟩ :: [⟨some "User", some "a@x"⟩])
      = get_recipients ⟨fun u => u == "a@x", fun _ => true, fun _ => ["a@x"]⟩
        [⟨some "User", some "a@x"⟩] :=
  ⟨Or.inl rfl,
    (get_recipients_spec ⟨fun u => u == "a@x", fun _ => true, fun _ => ["a@x"]⟩
      [⟨some "User", some "a@x"⟩]).2.2.2 ⟨none, some "z"⟩ (Or.inl rfl)⟩

/-! ## Lemmas: check_condition -/

theorem check_condition_some_ne (env : CondEnv) (s : String) (hs : ¬ s = "")
    (ht : ¬ stripStr s = "") :
    check_condition env (some s)
      = match checkBody env (stripStr s) with
        | .ok b => .ok b
        | .error _ => .ok false := by
  have hcond : ¬ ((!truthyStr (some s) || stripStr ((some s).getD "") == "") = true) := by
    intro hc
    rcases Bool.or_eq_true_iff.mp hc with hc | hc
    · exact hs (by simpa [truthyStr] using hc)
    · exact ht (by simpa using hc)
  unfold check_condition
  rw [if_neg hcond]
  rfl

/-- C9: `check_condition` never lets an exception escape — every call
returns `.ok`: blank or whitespace-only conditions (and a missing
condition field) yield `True`; a stripped string enclosed in braces goes
through the JSON path and any other non-blank string through the
expression path; JSON parse failure, an unknown operator, and a failing
expression evaluation all yield `False` instead of an error. -/
theorem check_condition_spec (env : CondEnv) :
    (∀ c, ∃ b, check_condition env c = .ok b)
    ∧ check_condition env none = .ok true
    ∧ (∀ s, stripStr s = "" → check_condition env (some s) = .ok true)
    ∧ (∀ s, ¬ stripStr s = "" →
        (startsWithStr "\x7b" (stripStr s) && endsWithStr "\x7d" (stripStr s)) = true →
        env.jsonParse (stripStr s) = none →
        check_condition env (some s) = .ok false)
    ∧ (∀ s pairs, ¬ stripStr s = "" →
        (startsWithStr "\x7b" (stripStr s) && endsWithStr "\x7d" (stripStr s)) = true →
        env.jsonParse (stripStr s) = some pairs →
        check_condition env (some s)
          = match evalPairs env pairs with
            | .ok b => .ok b
            | .error _ => .ok false)
    ∧ (∀ s, ¬ stripStr s = "" →
        (startsWithStr "\x7b" (stripStr s) && endsWithStr "\x7d" (stripStr s)) = false →
        check_condition env (some s) = .ok (evaluate_expression_condition env (stripStr s)))
    ∧ (∀ s, env.safeEval s = .error () → evaluate_expression_condition env s = false)
    ∧ (∀ f0 op cv rest, op ∉ knownOps →
        evalPairs env ((f0, JVal.jarr [JVal.jstr op, cv]) :: rest) = .ok false) := by
  have hne : ∀ s : String, ¬ stripStr s = "" → ¬ s = "" := by
    intro s h hs
    exact h (by rw [hs]; rfl)
  refine ⟨?_, rfl, ?_, ?_, ?_, ?_, ?_, ?_⟩
  · intro c
    by_cases hcond : (!truthyStr c || stripStr (c.getD "") == "") = true
    · exact ⟨true, by unfold check_condition; rw [if_pos hcond]⟩
    · unfold check_condition
      rw [if_neg hcond]
      cases hb : checkBody env (stripStr (c.getD "")) with
      | ok b => exact ⟨b, rfl⟩
      | error e => exact ⟨false, rfl⟩
  · intro s h
    unfold check_condition
    rw [if_pos]
    simp [h]
  · intro s h hbrace hparse
    rw [check_condition_some_ne env s (hne s h) h]
    unfold checkBody
    rw [if_pos hbrace]
    unfold evaluate_dict_condition
    rw [hparse]
  · intro s pairs h hbrace hparse
    rw [check_condition_some_ne env s (hne s h) h]
    unfold checkBody
    rw [if_pos hbrace]
    unfold evaluate_dict_condition
    rw [hparse]
  · intro s h hbrace
    rw [check_condition_some_ne env s (hne s h) h]
    unfold checkBody
    rw [if_neg (by simp [hbrace])]
  · intro s h
    unfold evaluate_expression_condition
    rw [h]
  · intro f0 op cv rest hop
    simp only [evalPairs, evalPair]
    rw [if_neg hop]

/-- Witness for C9: a malformed JSON condition evaluates to `False`
without raising. -/
theorem check_condition_spec_witness :
    ¬ stripStr "\x7bx\x7d" = ""
    ∧ (startsWithStr "\x7b" (stripStr "\x7bx\x7d") && endsWithStr "\x7d" (stripStr "\x7bx\x7d")) = true
    ∧ check_condition
        ⟨fun _ => JVal.jnull, fun _ => none, fun _ _ _ => Except.ok true,
          fun _ _ => true, fun _ => Except.error ()⟩ (some "\x7bx\x7d") = .ok false :=
  ⟨by decide, by decide,
    (check_condition_spec
      ⟨fun _ => JVal.jnull, fun _ => none, fun _ _ _ => Except.ok true,
        fun _ _ => true, fun _ => Except.error ()⟩).2.2.2.1 "\x7bx\x7d"
      (by decide) (by decide) rfl⟩

/-! ## Lemmas: evaluate_custom_notifications gating -/

/-- C4: the hook methods `on_update`, `on_submit`, `on_cancel` map to the
`Save`, `Submit`, `Cancel` events; any other method string produces no
rule query and no sends; an `on_update` whose docstatus differs from the
pre-save docstatus also produces no rule query and no sends; otherwise
the rules for the mapped event are queried and drive the sends. -/
theorem evaluate_custom_notifications_spec (env : NotifEnv) (d : NotifDoc) :
    event_map "on_update" = some "Save"
    ∧ event_map "on_submit" = some "Submit"
    ∧ event_map "on_cancel" = some "Cancel"
    ∧ (∀ method, ¬ method ∈ ["on_update", "on_submit", "on_cancel"] →
        evaluate_custom_notifications env d method = ⟨false, []⟩)
    ∧ (∀ b, d.beforeSave = some b → ¬ d.docstatus = b →
        evaluate_custom_notifications env d "on_update" = ⟨false, []⟩)
    ∧ evaluate_custom_notifications env d "on_submit"
        = ⟨true, (env.getRules "Submit").flatMap (ruleSends env d "Submit")⟩
    ∧ evaluate_custom_notifications env d "on_cancel"
        = ⟨true, (env.getRules "Cancel").flatMap (ruleSends env d "Cancel")⟩ := by
  refine ⟨rfl, rfl, rfl, ?_, ?_, ?_, ?_⟩
  · intro method hm
    simp only [List.mem_cons, List.mem_singleton, not_or] at hm
    unfold evaluate_custom_notifications event_map
    rw [if_neg hm.1, if_neg hm.2.1, if_neg hm.2.2.1]
  · intro b hb hne
    unfold evaluate_custom_notifications event_map
    simp [hb, hne]
  · unfold evaluate_custom_notifications event_map
    simp
  · unfold evaluate_custom_notifications event_map
    simp

/-- Witness for C4: an unmapped hook does nothing, and a save that changes
docstatus does nothing. -/
theorem evaluate_custom_notifications_spec_witness :
    (¬ "before_insert" ∈ ["on_update", "on_submit", "on_cancel"])
    ∧ evaluate_custom_notifications
        ⟨fun _ => [], fun _ => true, true, fun _ => []⟩ ⟨1, some 0⟩ "before_insert"
        = ⟨false, []⟩
    ∧ evaluate_custom_notifications
        ⟨fun _ => [], fun _ => true, true, fun _ => []⟩ ⟨1, some 0⟩ "on_update"
        = ⟨false, []⟩ :=
  ⟨by decide,
    (evaluate_custom_notifications_spec
      ⟨fun _ => [], fun _ => true, true, fun _ => []⟩ ⟨1, some 0⟩).2.2.2.1
      "before_insert" (by decide),
    (evaluate_custom_notifications_spec
      ⟨fun _ => [], fun _ => true, true, fun _ => []⟩ ⟨1, some 0⟩).2.2.2.2.1
      0 rfl (by decide)⟩

/-! ## Lemmas: notification delivery order and channels -/

/-- C6: in both `send_notification` and `send_single_notification`, every
realtime publish carries `after_commit = True` and is preceded by the
Notification Log insert: write, then (after commit) notify. -/
theorem send_traces_write_then_notify (env : SendEnv) (u s m ch : String) :
    publishAfterCommitOnly (send_notification env u s m ch) = true
    ∧ insertBeforePublish false (send_notification env u s m ch) = true
    ∧ publishAfterCommitOnly (send_single_notification env u s m ch).1 = true
    ∧ insertBeforePublish false (send_single_notification env u s m ch).1 = true := by
  by_cases hv : env.validUser u = true <;>
  by_cases h1 : ch = "Email" <;>
  by_cases h2 : ch = "Sms" <;>
  by_cases h3 : env.smsEnabled = true <;>
  rcases hm : env.mobileNo u with _ | mb <;>
  (try by_cases h4 : mb = "") <;>
  simp_all [send_notification, send_single_notification,
    publishAfterCommitOnly, insertBeforePublish]

/-- C8: `send_notification` always inserts the in-app Notification Log;
it emails exactly when the channel is `"Email"`; it sends an SMS exactly
when the channel is `"Sms"`, SMS is enabled, and the user has a truthy
mobile number. -/
theorem send_notification_channels (env : SendEnv) (u s m ch : String) :
    Action.insertLog u s ∈ send_notification env u s m ch
    ∧ (hasEmail (send_notification env u s m ch) = true ↔ ch = "Email")
    ∧ (hasSms (send_notification env u s m ch) = true ↔
        ch = "Sms" ∧ env.smsEnabled = true ∧ truthyStr (env.mobileNo u) = true) := by
  by_cases h1 : ch = "Email" <;>
  by_cases h2 : ch = "Sms" <;>
  by_cases h3 : env.smsEnabled = true <;>
  rcases hm : env.mobileNo u with _ | mb <;>
  (try by_cases h4 : mb = "") <;>
  simp_all [send_notification, truthyStr, hasEmail, hasSms]

/-! ## Lemmas: the SMS retry loop -/

theorem retryGo_posts_le (a : Nat → Except Unit ApiResp) :
    ∀ (fuel i : Nat), (retryGo a i fuel).posts ≤ fuel
  | 0, _ => Nat.le_refl 0
  | fuel + 1, i => by
    have ih := retryGo_posts_le a fuel (i + 1)
    unfold retryGo
    split
    · split_ifs
      · show 1 ≤ fuel + 1
        omega
      · show 1 ≤ fuel + 1
        omega
      · show (retryGo a (i + 1) fuel).posts + 1 ≤ fuel + 1
        omega
      · show 1 ≤ fuel + 1
        omega
      · show (retryGo a (i + 1) fuel).posts + 1 ≤ fuel + 1
        omega
    · split_ifs
      · show 1 ≤ fuel + 1
        omega
      · show (retryGo a (i + 1) fuel).posts + 1 ≤ fuel + 1
        omega

theorem retryGo_posts_pos (a : Nat → Except Unit ApiResp) :
    ∀ (fuel i : Nat), 1 ≤ fuel → 1 ≤ (retryGo a i fuel).posts
  | 0, _, h => absurd h (by omega)
  | fuel + 1, i, _ => by
    unfold retryGo
    split
    · split_ifs
      · exact Nat.le_refl 1
      · exact Nat.le_refl 1
      · show 1 ≤ (retryGo a (i + 1) fuel).posts + 1
        omega
      · exact Nat.le_refl 1
      · show 1 ≤ (retryGo a (i + 1) fuel).posts + 1
        omega
    · split_ifs
      · exact Nat.le_refl 1
      · show 1 ≤ (retryGo a (i + 1) fuel).posts + 1
        omega

theorem retryGo_sleeps (a : Nat → Except Unit ApiResp) :
    ∀ (fuel i : Nat),
      (retryGo a i fuel).sleeps
        = (List.range ((retryGo a i fuel).posts - 1)).map
            (fun k => Nat.min (2 ^ (i + k)) 5)
  | 0, _ => rfl
  | fuel + 1, i => by
    have key : ¬ fuel = 0 →
        (Nat.min (2 ^ i) 5 :: (retryGo a (i + 1) fuel).sleeps)
          = (List.range ((retryGo a (i + 1) fuel).posts + 1 - 1)).map
              (fun k => Nat.min (2 ^ (i + k)) 5) := by
      intro hf
      have ih := retryGo_sleeps a fuel (i + 1)
      have hpos := retryGo_posts_pos a fuel (i + 1) (by omega)
      have hrange : (retryGo a (i + 1) fuel).posts + 1 - 1
          = ((retryGo a (i + 1) fuel).posts - 1) + 1 := by omega
      rw [hrange, List.range_succ_eq_map, List.map_cons, List.map_map, ih]
      congr 1
      refine List.map_congr_left ?_
      intro k _
      simp only [Function.comp_apply]
      have hk : i + 1 + k = i + (k + 1) := by omega
      rw [hk]
    unfold retryGo
    split
    · split_ifs with h1 h2 h3 h4
      · rfl
      · rfl
      · exact key h3
      · rfl
      · exact key h4
    · split_ifs with h1
      · rfl
      · exact key h1

theorem retryGo_error_iff (a : Nat → Except Unit ApiResp) :
    ∀ (fuel i : Nat), 1 ≤ fuel →
      ((retryGo a i fuel).result = .error ()
        ↔ ∀ j, i ≤ j → j < i + fuel → okParsed200 (a j) = false)
  | 0, _, h => absurd h (by omega)
  | fuel + 1, i, _ => by
    unfold retryGo
    split
    · rename_i r heq
      split_ifs with h1 h2 h3 h4
      · constructor
        · intro h
          exact absurd h (by simp)
        · intro h
          have := h i (Nat.le_refl i) (by omega)
          rw [heq] at this
          simp [okParsed200, h1, h2] at this
      · constructor
        · intro _ j hj1 hj2
          have hji : j = i := by omega
          subst hji
          rw [heq]
          simp [okParsed200, h2]
        · intro _
          rfl
      · have ih := retryGo_error_iff a fuel (i + 1) (by omega)
        rw [show ((⟨(retryGo a (i + 1) fuel).result, (retryGo a (i + 1) fuel).posts + 1,
            Nat.min (2 ^ i) 5 :: (retryGo a (i + 1) fuel).sleeps⟩ : RetryOutcome).result)
            = (retryGo a (i + 1) fuel).result from rfl, ih]
        constructor
        · intro h j hj1 hj2
          by_cases hji : j = i
          · subst hji
            rw [heq]
            simp [okParsed200, h2]
          · exact h j (by omega) (by omega)
        · intro h j hj1 hj2
          exact h j (by omega) (by omega)
      · constructor
        · intro _ j hj1 hj2
          have hji : j = i := by omega
          subst hji
          rw [heq]
          simp [okParsed200, h1]
        · intro _
          rfl
      · have ih := retryGo_error_iff a fuel (i + 1) (by omega)
        rw [show ((⟨(retryGo a (i + 1) fuel).result, (retryGo a (i + 1) fuel).posts + 1,
            Nat.min (2 ^ i) 5 :: (retryGo a (i + 1) fuel).sleeps⟩ : RetryOutcome).result)
            = (retryGo a (i + 1) fuel).result from rfl, ih]
        constructor
        · intro h j hj1 hj2
          by_cases hji : j = i
          · subst hji
            rw [heq]
            simp [okParsed200, h1]
          · exact h j (by omega) (by omega)
        · intro h j hj1 hj2
          exact h j (by omega) (by omega)
    · rename_i e heq
      split_ifs with h1
      · constructor
        · intro _ j hj1 hj2
          have hji : j = i := by omega
          subst hji
          rw [heq]
          rfl
        · intro _
          rfl
      · have ih := retryGo_error_iff a fuel (i + 1) (by omega)
        rw [show ((⟨(retryGo a (i + 1) fuel).result, (retryGo a (i + 1) fuel).posts + 1,
            Nat.min (2 ^ i) 5 :: (retryGo a (i + 1) fuel).sleeps⟩ : RetryOutcome).result)
            = (retryGo a (i + 1) fuel).result from rfl, ih]
        constructor
        · intro h j hj1 hj2
          by_cases hji : j = i
          · subst hji
            rw [heq]
            rfl
          · exact h j (by omega) (by omega)
        · intro h j hj1 hj2
          exact h j (by omega) (by omega)

theorem retryGo_first200 (a : Nat → Except Unit ApiResp) :
    ∀ (fuel i m : Nat), i ≤ m → m < i + fuel →
      (∀ j, i ≤ j → j < m → okParsed200 (a j) = false) →
      ∀ r, a m = .ok r → r.status = 200 → parsedBody r.body = true →
      (retryGo a i fuel).result = .ok r ∧ (retryGo a i fuel).posts = m + 1 - i
  | 0, _, _, _, h2, _, _, _, _, _ => absurd h2 (by omega)
  | fuel + 1, i, m, h1, _, hprev, r, hm, hst, hpb => by
    by_cases him : m = i
    · subst him
      unfold retryGo
      split
      · rename_i r' heq
        rw [hm] at heq
        injection heq with hrr
        subst hrr
        rw [if_pos hst, if_pos hpb]
        exact ⟨rfl, by show 1 = m + 1 - m; omega⟩
      · rename_i e heq
        rw [hm] at heq
        exact absurd heq (by simp)
    · have h0 : okParsed200 (a i) = false := hprev i (Nat.le_refl i) (by omega)
      have ihm := retryGo_first200 a fuel (i + 1) m (by omega) (by omega)
        (fun j hj1 hj2 => hprev j (by omega) hj2) r hm hst hpb
      have hfuel : ¬ fuel = 0 := by omega
      unfold retryGo
      split
      · rename_i r' heq
        rw [heq] at h0
        by_cases hr' : r'.status = 200
        · have hpb' : parsedBody r'.body = false := by
            simp [okParsed200, hr'] at h0
            exact h0
          rw [if_pos hr', hpb']
          rw [if_neg (by simp), if_neg hfuel]
          refine ⟨ihm.1, ?_⟩
          show (retryGo a (i + 1) fuel).posts + 1 = m + 1 - i
          rw [ihm.2]
          omega
        · rw [if_neg hr', if_neg hfuel]
          refine ⟨ihm.1, ?_⟩
          show (retryGo a (i + 1) fuel).posts + 1 = m + 1 - i
          rw [ihm.2]
          omega
      · rename_i e heq
        rw [if_neg hfuel]
        refine ⟨ihm.1, ?_⟩
        show (retryGo a (i + 1) fuel).posts + 1 = m + 1 - i
        rw [ihm.2]
        omega

/-- C2 counterexample: an HTTP-200 response whose body fails JSON parsing
is re-POSTed, not returned.  With every attempt an HTTP-200 whose body is
unparseable (`response.json()` raises, and that `JSONDecodeError` is
caught by the `except requests.exceptions.RequestException` handler), the
loop makes all 3 POSTs, sleeps between them, and raises at the end — even
though every attempt produced an HTTP-200 response. -/
theorem post_with_retry_not_as_claimed :
    is200 (Except.ok (⟨200, JsonBody.malformed⟩ : ApiResp)) = true
    ∧ (_post_with_retry (fun _ => Except.ok ⟨200, JsonBody.malformed⟩) 2).posts = 3
    ∧ (_post_with_retry (fun _ => Except.ok ⟨200, JsonBody.malformed⟩) 2).result
        = Except.error ()
    ∧ (_post_with_retry (fun _ => Except.ok ⟨200, JsonBody.malformed⟩) 2).sleeps
        = [1, 2] :=
  ⟨rfl, rfl, rfl, rfl⟩

/-- C2 amended: `_post_with_retry` makes at most `retries + 1` POST
attempts; the sleeps between consecutive attempts are exactly
`min(2 ** attempt, 5)` seconds in attempt order; the first HTTP-200
response whose body parses as JSON is returned as is with no further POST
(immediately when its `ResponseCode` is `"200"`, by break-and-return when
its content is invalid); an HTTP-200 whose body fails JSON parsing is
treated like a request failure and retried; and it raises exactly when no
attempt produced an HTTP-200 response with a parseable body. -/
theorem post_with_retry_amended_spec (a : Nat → Except Unit ApiResp) (retries : Nat) :
    (_post_with_retry a retries).posts ≤ retries + 1
    ∧ (_post_with_retry a retries).sleeps
        = (List.range ((_post_with_retry a retries).posts - 1)).map
            (fun k => Nat.min (2 ^ k) 5)
    ∧ ((_post_with_retry a retries).result = .error ()
        ↔ ∀ i, i ≤ retries → okParsed200 (a i) = false)
    ∧ (∀ m, m ≤ retries → (∀ j, j < m → okParsed200 (a j) = false) →
        ∀ r, a m = .ok r → r.status = 200 → parsedBody r.body = true →
        (_post_with_retry a retries).result = .ok r
          ∧ (_post_with_retry a retries).posts = m + 1) := by
  refine ⟨retryGo_posts_le a (retries + 1) 0, ?_, ?_, ?_⟩
  · simpa using retryGo_sleeps a (retries + 1) 0
  · unfold _post_with_retry
    rw [retryGo_error_iff a (retries + 1) 0 (by omega)]
    constructor
    · intro h i hi
      exact h i (by omega) (by omega)
    · intro h j _ hj2
      exact h j (by omega)
  · intro m hm hprev r hr hst hpb
    have h := retryGo_first200 a (retries + 1) 0 m (by omega) (by omega)
      (fun j _ hj2 => hprev j hj2) r hr hst hpb
    unfold _post_with_retry
    exact ⟨h.1, by rw [h.2]; omega⟩

/-- Witness for C2 amended: with a network that errors on the first
attempt and returns a valid HTTP-200 JSON object on the second, the retry
loop returns that response after exactly two POSTs. -/
theorem post_with_retry_amended_spec_witness :
    (∀ j, j < 1 → okParsed200 ((fun i => if i = 0 then Except.error ()
        else Except.ok ⟨200, JsonBody.obj [("ResponseCode", "200")]⟩) j) = false)
    ∧ (_post_with_retry (fun i => if i = 0 then Except.error ()
        else Except.ok ⟨200, JsonBody.obj [("ResponseCode", "200")]⟩) 2).result
        = Except.ok ⟨200, JsonBody.obj [("ResponseCode", "200")]⟩
    ∧ (_post_with_retry (fun i => if i = 0 then Except.error ()
        else Except.ok ⟨200, JsonBody.obj [("ResponseCode", "200")]⟩) 2).posts = 2 := by
  have hprev : ∀ j, j < 1 → okParsed200 ((fun i => if i = 0 then Except.error ()
      else Except.ok ⟨200, JsonBody.obj [("ResponseCode", "200")]⟩) j) = false := by
    intro j hj
    have hj0 : j = 0 := by omega
    subst hj0
    rfl
  have happ := (post_with_retry_amended_spec (fun i => if i = 0 then Except.error ()
      else Except.ok ⟨200, JsonBody.obj [("ResponseCode", "200")]⟩) 2).2.2.2 1 (by omega)
    hprev ⟨200, JsonBody.obj [("ResponseCode", "200")]⟩ rfl rfl rfl
  exact ⟨hprev, happ.1, happ.2⟩

/-! ## Lemmas: mobile number normalization -/

theorem isPrefixOf_append_self (l t : List Char) : l.isPrefixOf (l ++ t) = true := by
  rw [ List.isPrefixOf_iff_prefix]
  exact List.prefix_append l t

theorem startsWith_append_self (p x : String) : startsWithStr p (p ++ x) = true := by
  unfold startsWithStr
  rw [String.data_append]
  exact isPrefixOf_append_self _ _

theorem normalize_normalize (c : String) :
    normalizeDigits (normalizeDigits c) = normalizeDigits c := by
  by_cases h1 : startsWithStr "252" c = true
  · have hin : normalizeDigits c = c := by
      unfold normalizeDigits
      rw [if_pos h1]
    rw [hin, hin]
  · by_cases h2 : startsWithStr "0" c = true
    · have hin : normalizeDigits c = "252" ++ ⟨c.data.drop 1⟩ := by
        unfold normalizeDigits
        rw [if_neg h1, if_pos h2]
      rw [hin]
      unfold normalizeDigits
      rw [if_pos (startsWith_append_self "252" _)]
    · by_cases h3 : c.length = 9
      · have hin : normalizeDigits c = "252" ++ c := by
          unfold normalizeDigits
          rw [if_neg h1, if_neg h2, if_pos h3]
        rw [hin]
        unfold normalizeDigits
        rw [if_pos (startsWith_append_self "252" _)]
      · by_cases h4 : (c.length = 12 && startsWithStr "252" c) = true
        · simp only [Bool.and_eq_true] at h4
          exact absurd h4.2 h1
        · have hin : normalizeDigits c = c := by
            unfold normalizeDigits
            rw [if_neg h1, if_neg h2, if_neg h3, if_neg h4]
          rw [hin, hin]

theorem digits_all (s : String) : (digitsOf s).data.all (·.isDigit) = true := by
  rw [List.all_eq_true]
  intro x hx
  exact (List.mem_filter.mp hx).2

theorem digitsOf_eq_self {t : String} (h : t.data.all (·.isDigit) = true) :
    digitsOf t = t := by
  apply String.ext
  show t.data.filter (·.isDigit) = t.data
  exact List.filter_eq_self.mpr (List.all_eq_true.mp h)

theorem all_digits_append252 {x : String} (h : x.data.all (·.isDigit) = true) :
    ("252" ++ x).data.all (·.isDigit) = true := by
  rw [String.data_append, List.all_append, h]
  decide

theorem all_digits_drop {l : List Char} (h : l.all (·.isDigit) = true) (n : Nat) :
    (l.drop n).all (·.isDigit) = true := by
  rw [List.all_eq_true] at h ⊢
  intro x hx
  exact h x (List.drop_subset n l hx)

theorem normalize_all_digits {c : String} (h : c.data.all (·.isDigit) = true) :
    (normalizeDigits c).data.all (·.isDigit) = true := by
  unfold normalizeDigits
  split_ifs
  · exact h
  · exact all_digits_append252 (all_digits_drop h 1)
  · exact all_digits_append252 h
  · exact h
  · exact h

theorem ne_empty_of_data_ne {y : String} (h : ¬ y.data = []) : ¬ y = "" := by
  intro h0
  rw [h0] at h
  exact h rfl

theorem append252_ne_empty (x : String) : ¬ ("252" ++ x) = "" := by
  apply ne_empty_of_data_ne
  rw [String.data_append]
  simp [show ("252" : String).data = ['2', '5', '2'] from rfl]

theorem normalize_ne_empty {c : String} (h : ¬ c = "") :
    ¬ normalizeDigits c = "" := by
  unfold normalizeDigits
  split_ifs
  · exact h
  · exact append252_ne_empty _
  · exact append252_ne_empty _
  · exact h
  · exact h

/-- C10 counterexample: `_clean_mobile_number` is not idempotent.  On a
truthy input with no digits (`"abc"`), the first application returns the
empty string and the second returns `None`. -/
theorem clean_mobile_not_idempotent :
    _clean_mobile_number (some "abc") = some ""
    ∧ _clean_mobile_number (_clean_mobile_number (some "abc")) = none
    ∧ ¬ (_clean_mobile_number (_clean_mobile_number (some "abc"))
          = _clean_mobile_number (some "abc")) := by
  refine ⟨by decide, by decide, by decide⟩

/-- C10 amended: on every input whose digit part is non-empty,
`_clean_mobile_number` is idempotent; every `some` output consists only of
digits; a digit string with a leading `'0'` is normalized by replacing the
`'0'` with the country code `252`, and a bare 9-digit subscriber number by
prefixing `252`. -/
theorem clean_mobile_amended_spec (s : String) :
    (¬ digitsOf s = "" →
      _clean_mobile_number (_clean_mobile_number (some s)) = _clean_mobile_number (some s))
    ∧ (∀ r, _clean_mobile_number (some s) = some r → r.data.all (·.isDigit) = true)
    ∧ (startsWithStr "252" (digitsOf s) = false →
        startsWithStr "0" (digitsOf s) = true →
        _clean_mobile_number (some s) = some ("252" ++ ⟨(digitsOf s).data.drop 1⟩))
    ∧ (startsWithStr "252" (digitsOf s) = false →
        startsWithStr "0" (digitsOf s) = false →
        (digitsOf s).length = 9 →
        _clean_mobile_number (some s) = some ("252" ++ digitsOf s)) := by
  have hdigits_empty : digitsOf "" = "" := rfl
  have hs_of_digits : ¬ digitsOf s = "" → ¬ s = "" := by
    intro h h0
    rw [h0] at h
    exact h hdigits_empty
  have happ : ∀ t : String, ¬ t = "" →
      _clean_mobile_number (some t) = some (normalizeDigits (digitsOf t)) := by
    intro t ht
    unfold _clean_mobile_number
    rw [if_neg (by simp [truthyStr, ht])]
    rfl
  refine ⟨?_, ?_, ?_, ?_⟩
  · intro hc
    have hs := hs_of_digits hc
    rw [happ s hs]
    have hy : ¬ normalizeDigits (digitsOf s) = "" := normalize_ne_empty hc
    rw [happ _ hy, digitsOf_eq_self (normalize_all_digits (digits_all s)),
      normalize_normalize]
  · intro r hr
    by_cases hs : s = ""
    · rw [hs] at hr
      rw [show _clean_mobile_number (some "") = none from by decide] at hr
      exact Option.noConfusion hr
    · rw [happ s hs] at hr
      injection hr with hr
      rw [← hr]
      exact normalize_all_digits (digits_all s)
  · intro h252 h0
    have hc : ¬ digitsOf s = "" := by
      intro he
      rw [he] at h0
      exact absurd h0 (by decide)
    rw [happ s (hs_of_digits hc)]
    unfold normalizeDigits
    rw [if_neg (by simp [h252]), if_pos h0]
  · intro h252 h0 hlen
    have hc : ¬ digitsOf s = "" := by
      intro he
      rw [he] at hlen
      exact absurd hlen (by decide)
    rw [happ s (hs_of_digits hc)]
    unfold normalizeDigits
    rw [if_neg (by simp [h252]), if_neg (by simp [h0]), if_pos hlen]

/-- Witness for C10 amended: a local number with a leading zero. -/
theorem clean_mobile_amended_spec_witness :
    (¬ digitsOf "0612345678" = "")
    ∧ _clean_mobile_number (_clean_mobile_number (some "0612345678"))
        = _clean_mobile_number (some "0612345678")
    ∧ startsWithStr "252" (digitsOf "0612345678") = false
    ∧ startsWithStr "0" (digitsOf "0612345678") = true
    ∧ _clean_mobile_number (some "0612345678")
        = some ("252" ++ ⟨(digitsOf "0612345678").data.drop 1⟩) :=
  ⟨by decide,
    (clean_mobile_amended_spec "0612345678").1 (by decide),
    by decide, by decide,
    (clean_mobile_amended_spec "0612345678").2.2.1 (by decide) (by decide)⟩

/-! ## Lemmas: substring occurrence in built SQL strings -/

theorem patInside_iff {pat : List Char} :
    ∀ {l : List Char}, patInside pat l = true ↔ pat <:+: l := by
  intro l
  induction l with
  | nil =>
    simp only [patInside, List.isEmpty_iff]
    constructor
    · rintro rfl
      exact ⟨[], [], rfl⟩
    · rintro ⟨s, t, hst⟩
      rcases List.append_eq_nil.mp hst with ⟨hst1, ht⟩
      exact (List.append_eq_nil.mp hst1).2
  | cons c rest ih =>
    simp only [patInside, Bool.or_eq_true]
    constructor
    · rintro (h | h)
      · rcases List.isPrefixOf_iff_prefix.mp h with ⟨t, ht⟩
        exact ⟨[], t, by simpa using ht⟩
      · rcases ih.mp h with ⟨s, t, hst⟩
        exact ⟨c :: s, t, by simp [hst]⟩
    · rintro ⟨s, t, hst⟩
      cases s with
      | nil =>
        left
        rw [ List.isPrefixOf_iff_prefix]
        exact ⟨t, by simpa using hst⟩
      | cons a s' =>
        right
        simp only [List.cons_append] at hst
        injection hst with h1 h2
        exact ih.mpr ⟨s', t, h2⟩

theorem strContains_of_middle (a v b : String) : strContains (a ++ v ++ b) v = true := by
  unfold strContains
  rw [patInside_iff, String.data_append, String.data_append]
  exact ⟨a.data, b.data, by simp⟩

theorem strContains_keepLeft {s : String} {v : String} (b : String)
    (h : strContains s v = true) : strContains (s ++ b) v = true := by
  unfold strContains at h ⊢
  rw [patInside_iff] at h ⊢
  rw [String.data_append]
  rcases h with ⟨x, y, hxy⟩
  exact ⟨x, y ++ b.data, by simp [← hxy]⟩

theorem strContains_keepRight {s : String} {v : String} (a : String)
    (h : strContains s v = true) : strContains (a ++ s) v = true := by
  unfold strContains at h ⊢
  rw [patInside_iff] at h ⊢
  rw [String.data_append]
  rcases h with ⟨x, y, hxy⟩
  exact ⟨a.data ++ x, y, by simp [← hxy]⟩

theorem strContains_joinSep {sep v : String} :
    ∀ {xs : List String} {x : String}, x ∈ xs → strContains x v = true →
      strContains (joinSep sep xs) v = true := by
  intro xs
  induction xs with
  | nil => intro x hx; cases hx
  | cons y ys ih =>
    intro x hx h
    rcases List.mem_cons.mp hx with rfl | hx'
    · cases ys with
      | nil => exact h
      | cons z zs => exact strContains_keepLeft _ (strContains_keepLeft _ h)
    · cases ys with
      | nil => cases hx'
      | cons z zs =>
        show strContains (y ++ sep ++ joinSep sep (z :: zs)) v = true
        exact strContains_keepRight _ (ih hx' h)

/-- C3 counterexample: with `from_date = "2024-01-01"` the condition
string produced by `get_conditions` contains the raw filter value spliced
into the SQL text, and the bound-parameter list passed to the database for
the main query holds only the account names — the filter values are not
bound parameters. -/
theorem cash_flow_sql_not_parameterized :
    get_conditions ⟨some "2024-01-01", none, none, none, none⟩
      = " AND posting_date >= '2024-01-01'"
    ∧ strContains (get_conditions ⟨some "2024-01-01", none, none, none, none⟩)
        "2024-01-01" = true
    ∧ ¬ "2024-01-01" ∈ get_data_params ["Cash - TC"] :=
  ⟨by decide, by decide, by decide⟩

/-- C3 amended: the account names are passed as bound `%s` parameters
(the parameter lists are exactly the account lists), but every provided
`from_date`, `to_date`, `voucher_type` and `party` filter value is
interpolated directly into the SQL text of `get_conditions` and of the
opening-balance query. -/
theorem cash_flow_sql_amended_spec (f : CFFilters) (accounts : List String) :
    get_data_params accounts = accounts
    ∧ get_opening_balance_params accounts = accounts
    ∧ (truthyStr f.from_date = true →
        strContains (get_conditions f) (f.from_date.getD "") = true)
    ∧ (truthyStr f.to_date = true →
        strContains (get_conditions f) (f.to_date.getD "") = true)
    ∧ (truthyStr f.voucher_type = true →
        strContains (get_conditions f) (f.voucher_type.getD "") = true)
    ∧ (truthyStr f.party = true →
        strContains (get_conditions f) (f.party.getD "") = true)
    ∧ strContains (get_opening_balance_query f accounts) (f.from_date.getD "") = true
    ∧ (truthyStr f.voucher_type = true →
        strContains (get_opening_balance_query f accounts) (f.voucher_type.getD "") = true)
    ∧ (truthyStr f.party = true →
        strContains (get_opening_balance_query f accounts) (f.party.getD "") = true) := by
  have hmain : ∀ (x v : String), x ∈ cfConds f → strContains x v = true →
      strContains (get_conditions f) v = true := by
    intro x v hx hv
    have hne : (cfConds f).isEmpty = false := by
      cases hc : cfConds f with
      | nil => rw [hc] at hx; cases hx
      | cons a l => rfl
    unfold get_conditions
    rw [if_pos (by rw [hne]; rfl)]
    exact strContains_keepRight _ (strContains_joinSep hx hv)
  have hob : ∀ (x v : String), x ∈ obConds f → strContains x v = true →
      strContains (get_opening_balance_query f accounts) v = true := by
    intro x v hx hv
    unfold get_opening_balance_query
    exact strContains_keepRight _ (strContains_joinSep hx hv)
  refine ⟨rfl, rfl, ?_, ?_, ?_, ?_, ?_, ?_, ?_⟩
  · intro h1
    refine hmain _ _ ?_ (strContains_of_middle "posting_date >= '" _ "'")
    unfold cfConds
    apply List.mem_append_left
    apply List.mem_append_left
    apply List.mem_append_left
    apply List.mem_append_left
    rw [if_pos h1]
    exact List.mem_singleton.mpr rfl
  · intro h2
    refine hmain _ _ ?_ (strContains_of_middle "posting_date <= '" _ "'")
    unfold cfConds
    apply List.mem_append_left
    apply List.mem_append_left
    apply List.mem_append_left
    apply List.mem_append_right
    rw [if_pos h2]
    exact List.mem_singleton.mpr rfl
  · intro h3
    refine hmain _ _ ?_ (strContains_of_middle "voucher_type = '" _ "'")
    unfold cfConds
    apply List.mem_append_left
    apply List.mem_append_left
    apply List.mem_append_right
    rw [if_pos h3]
    exact List.mem_singleton.mpr rfl
  · intro h4
    refine hmain _ _ ?_ (strContains_of_middle "party = '" _ "'")
    unfold cfConds
    apply List.mem_append_left
    apply List.mem_append_right
    rw [if_pos h4]
    exact List.mem_singleton.mpr rfl
  · unfold get_opening_balance_query
    exact strContains_keepLeft _ (strContains_keepLeft _ (strContains_keepLeft _
      (strContains_of_middle _ _ _)))
  · intro h3
    refine hob _ _ ?_ (strContains_of_middle "voucher_type = '" _ "'")
    unfold obConds
    apply List.mem_append_left
    apply List.mem_append_left
    rw [if_pos h3]
    exact List.mem_singleton.mpr rfl
  · intro h4
    refine hob _ _ ?_ (strContains_of_middle "party = '" _ "'")
    unfold obConds
    apply List.mem_append_left
    apply List.mem_append_right
    rw [if_pos h4]
    exact List.mem_singleton.mpr rfl

/-- Witness for C3 amended at a concrete filter set. -/
theorem cash_flow_sql_amended_spec_witness :
    truthyStr (some "2024-01-01") = true
    ∧ strContains
        (get_conditions ⟨some "2024-01-01", some "2024-02-01", some "Payment Entry",
          some "ACME", none⟩) "2024-01-01" = true
    ∧ strContains
        (get_opening_balance_query ⟨some "2024-01-01", some "2024-02-01",
          some "Payment Entry", some "ACME", none⟩ ["Cash - TC"]) "ACME" = true :=
  ⟨rfl,
    (cash_flow_sql_amended_spec ⟨some "2024-01-01", some "2024-02-01",
      some "Payment Entry", some "ACME", none⟩ ["Cash - TC"]).2.2.1 rfl,
    (cash_flow_sql_amended_spec ⟨some "2024-01-01", some "2024-02-01",
      some "Payment Entry", some "ACME", none⟩ ["Cash - TC"]).2.2.2.2.2.2.2.2 rfl⟩

/-! ## Lemmas: the process_data running balance -/

theorem processLoop_sum (env : ReportEnv) (f : CFFilters) :
    ∀ (rs : List GLRow) (rb : ℚ),
      (processLoop env f rs rb).2
        = rb + (((processLoop env f rs rb).1.map (fun p => p.debit - p.credit)).sum)
  | [], rb => by simp [processLoop]
  | r :: rs, rb => by
    by_cases h : skipRow env f r = true
    · simp only [processLoop, if_pos h]
      exact processLoop_sum env f rs rb
    · simp only [processLoop, if_neg h, List.map_cons, List.sum_cons]
      rw [processLoop_sum env f rs (rb + r.debit - r.credit)]
      simp only [mkRow]
      ring

theorem processLoop_chain (env : ReportEnv) (f : CFFilters) :
    ∀ (rs : List GLRow) (rb : ℚ),
      List.Chain' balChain (processLoop env f rs rb).1
      ∧ ((processLoop env f rs rb).1 = [] → (processLoop env f rs rb).2 = rb)
      ∧ (∀ h, (processLoop env f rs rb).1.head? = some h →
          h.balance = rb + h.debit - h.credit)
      ∧ (∀ l, (processLoop env f rs rb).1.getLast? = some l →
          l.balance = (processLoop env f rs rb).2)
  | [], rb => by
    refine ⟨List.chain'_nil, fun _ => rfl, ?_, ?_⟩
    · intro h hh
      simp [processLoop] at hh
    · intro l hl
      simp [processLoop] at hl
  | r :: rs, rb => by
    by_cases h : skipRow env f r = true
    · simpa only [processLoop, if_pos h] using processLoop_chain env f rs rb
    · have ih := processLoop_chain env f rs (rb + r.debit - r.credit)
      simp only [processLoop, if_neg h]
      refine ⟨?_, ?_, ?_, ?_⟩
      · rw [List.chain'_cons']
        refine ⟨?_, ih.1⟩
        intro y hy
        have hb := ih.2.2.1 y hy
        show y.balance = (mkRow env r (rb + r.debit - r.credit)).balance + y.debit - y.credit
        rw [hb]
        rfl
      · intro habs
        simp at habs
      · intro hd hh
        injection hh with hh
        rw [← hh]
        show (mkRow env r (rb + r.debit - r.credit)).balance
          = rb + (mkRow env r (rb + r.debit - r.credit)).debit
            - (mkRow env r (rb + r.debit - r.credit)).credit
        rfl
      · intro l hl
        cases hrest : (processLoop env f rs (rb + r.debit - r.credit)).1 with
        | nil =>
          rw [hrest] at hl
          injection hl with hl
          rw [← hl]
          exact (ih.2.1 hrest).symm
        | cons b t =>
          rw [hrest, List.getLast?_cons_cons] at hl
          have := ih.2.2.2 l (by rw [hrest]; exact hl)
          exact this

theorem processLoop_vt (env : ReportEnv) (f : CFFilters) :
    ∀ (rs : List GLRow) (rb : ℚ), ∀ p ∈ (processLoop env f rs rb).1,
      p.voucher_type ∈ rs.map GLRow.voucher_type
  | [], rb => by
    intro p hp
    simp [processLoop] at hp
  | r :: rs, rb => by
    intro p hp
    by_cases h : skipRow env f r = true
    · rw [show processLoop env f (r :: rs) rb = processLoop env f rs rb from by
        simp only [processLoop, if_pos h]] at hp
      exact List.mem_cons_of_mem _ (processLoop_vt env f rs rb p hp)
    · simp only [processLoop, if_neg h] at hp
      rcases List.mem_cons.mp hp with rfl | hp'
      · exact List.mem_cons_self _ _
      · exact List.mem_cons_of_mem _
          (processLoop_vt env f rs (rb + r.debit - r.credit) p hp')

theorem getLast_cons_ne_none {α : Type} :
    ∀ {l : List α} {a : α}, ¬ (a :: l).getLast? = none
  | [], _, h => Option.noConfusion h
  | b :: t, _, h => by
    rw [List.getLast?_cons_cons] at h
    exact getLast_cons_ne_none h

theorem eq_nil_of_getLast_none {α : Type} {l : List α} (h : l.getLast? = none) :
    l = [] := by
  cases l with
  | nil => rfl
  | cons a t => exact absurd h getLast_cons_ne_none

theorem process_data_eq (env : ReportEnv) (data : List GLRow) (opening : ℚ)
    (f : CFFilters) :
    (process_data env data opening f = [] ∧
      (if truthyStr f.from_date = true then [openingRow f opening] else [])
        ++ (processLoop env f data opening).1 = [])
    ∨ (∃ lr,
        ((if truthyStr f.from_date = true then [openingRow f opening] else [])
          ++ (processLoop env f data opening).1).getLast? = some lr
        ∧ process_data env data opening f
          = ((if truthyStr f.from_date = true then [openingRow f opening] else [])
              ++ (processLoop env f data opening).1)
            ++ [closingRow f (processLoop env f data opening).2 lr.posting_date]) := by
  unfold process_data
  cases hlast : ((if truthyStr f.from_date = true then [openingRow f opening] else [])
      ++ (processLoop env f data opening).1).getLast? with
  | none =>
    left
    have hnil := eq_nil_of_getLast_none hlast
    exact ⟨hnil, hnil⟩
  | some lr =>
    right
    exact ⟨lr, rfl, rfl⟩

theorem out0_chain (env : ReportEnv) (f : CFFilters) (data : List GLRow) (opening : ℚ) :
    List.Chain' balChain
      ((if truthyStr f.from_date = true then [openingRow f opening] else [])
        ++ (processLoop env f data opening).1) := by
  rw [List.chain'_append]
  refine ⟨?_, (processLoop_chain env f data opening).1, ?_⟩
  · split_ifs
    · exact List.chain'_singleton _
    · exact List.chain'_nil
  · intro x hx y hy
    have hyb := (processLoop_chain env f data opening).2.2.1 y (Option.mem_def.mp hy)
    have hxb : x.balance = opening := by
      revert hx
      split_ifs
      · intro hx
        have hx' := Option.mem_def.mp hx
        simp at hx'
        subst hx'
        rfl
      · intro hx
        simp at hx
    show y.balance = x.balance + y.debit - y.credit
    rw [hyb, hxb]

theorem out0_last_balance (env : ReportEnv) (f : CFFilters) (data : List GLRow)
    (opening : ℚ) (lr : PRow)
    (hlast : ((if truthyStr f.from_date = true then [openingRow f opening] else [])
        ++ (processLoop env f data opening).1).getLast? = some lr) :
    lr.balance = (processLoop env f data opening).2 := by
  cases hl1 : (processLoop env f data opening).1 with
  | nil =>
    rw [hl1, List.append_nil] at hlast
    have hopen := (processLoop_chain env f data opening).2.1 hl1
    revert hlast
    split_ifs with h
    · intro hlast
      simp at hlast
      rw [hopen, ← hlast]
      rfl
    · intro hlast
      simp at hlast
  | cons b t =>
    rw [List.getLast?_append, hl1] at hlast
    cases hgl : (b :: t).getLast? with
    | none => exact absurd hgl getLast_cons_ne_none
    | some z =>
      rw [hgl] at hlast
      simp only [Option.or_some] at hlast
      injection hlast with hzr
      rw [← hzr]
      exact (processLoop_chain env f data opening).2.2.2 z (by rw [hl1]; exact hgl)

/-- C7: every pair of consecutive rows produced by `process_data`
satisfies the running-balance recurrence `balance = previous balance +
debit - credit` (so in particular every transaction row continues from
the row before it); with a `from_date` filter the first row is the
Opening Balance row, with zero debit and credit and the opening balance;
and on GL data whose voucher types avoid the reserved labels, a non-empty
output ends with a Closing Balance row, with zero debit and credit and
balance equal to the opening balance plus the sum of `debit - credit`
over the transaction rows. -/
theorem process_data_spec (env : ReportEnv) (data : List GLRow) (opening : ℚ)
    (f : CFFilters) :
    List.Chain' balChain (process_data env data opening f)
    ∧ (truthyStr f.from_date = true →
        (process_data env data opening f).head? = some (openingRow f opening))
    ∧ ((openingRow f opening).voucher_type = "Opening Balance"
        ∧ (openingRow f opening).debit = 0 ∧ (openingRow f opening).credit = 0
        ∧ (openingRow f opening).balance = opening)
    ∧ ((∀ r ∈ data, ¬ r.voucher_type = "Opening Balance"
          ∧ ¬ r.voucher_type = "Closing Balance") →
        ¬ process_data env data opening f = [] →
        ∃ cl, (process_data env data opening f).getLast? = some cl
          ∧ cl.voucher_type = "Closing Balance" ∧ cl.debit = 0 ∧ cl.credit = 0
          ∧ cl.balance = opening
              + (((process_data env data opening f).filter isTxnRow).map
                  (fun p => p.debit - p.credit)).sum) := by
  refine ⟨?_, ?_, ⟨rfl, rfl, rfl, rfl⟩, ?_⟩
  · rcases process_data_eq env data opening f with ⟨heq, _⟩ | ⟨lr, hlast, heq⟩
    · rw [heq]
      exact List.chain'_nil
    · rw [heq, List.chain'_append]
      refine ⟨out0_chain env f data opening, List.chain'_singleton _, ?_⟩
      have hlink : balChain lr
          (closingRow f (processLoop env f data opening).2 lr.posting_date) := by
        unfold balChain
        rw [show (closingRow f (processLoop env f data opening).2 lr.posting_date).balance
            = (processLoop env f data opening).2 from rfl,
          show (closingRow f (processLoop env f data opening).2 lr.posting_date).debit
            = 0 from rfl,
          show (closingRow f (processLoop env f data opening).2 lr.posting_date).credit
            = 0 from rfl,
          out0_last_balance env f data opening lr hlast]
        ring
      intro x hx y hy
      have hx' := Option.mem_def.mp hx
      rw [hlast] at hx'
      injection hx' with hx'
      have hy' := Option.mem_def.mp hy
      rw [show ([closingRow f (processLoop env f data opening).2 lr.posting_date].head?)
          = some (closingRow f (processLoop env f data opening).2 lr.posting_date)
          from rfl] at hy'
      injection hy' with hy'
      rw [← hx', ← hy']
      exact hlink
  · intro hfd
    rcases process_data_eq env data opening f with ⟨heq, hnil⟩ | ⟨lr, hlast, heq⟩
    · rw [if_pos hfd] at hnil
      exact absurd hnil (by simp)
    · rw [heq, if_pos hfd]
      simp
  · intro hvt hne
    rcases process_data_eq env data opening f with ⟨heq, hnil⟩ | ⟨lr, hlast, heq⟩
    · exact absurd heq hne
    · have hsum := processLoop_sum env f data opening
      have hall : ∀ p ∈ (processLoop env f data opening).1, isTxnRow p = true := by
        intro p hp
        have hvtp := processLoop_vt env f data opening p hp
        rcases List.mem_map.mp hvtp with ⟨r, hr, hvteq⟩
        have hres := hvt r hr
        unfold isTxnRow
        rw [← hvteq]
        simp [hres.1, hres.2]
      have hfb : (if truthyStr f.from_date = true
          then [openingRow f opening] else []).filter isTxnRow = [] := by
        split_ifs
        · rfl
        · rfl
      refine ⟨closingRow f (processLoop env f data opening).2 lr.posting_date,
        ?_, rfl, rfl, rfl, ?_⟩
      · rw [heq, List.getLast?_append]
        simp
      · show (processLoop env f data opening).2 = opening + _
        rw [heq, List.filter_append, List.filter_append, hfb,
          List.filter_eq_self.mpr hall]
        rw [show ([closingRow f (processLoop env f data opening).2
            lr.posting_date].filter isTxnRow) = [] from rfl]
        rw [List.nil_append, List.append_nil]
        exact hsum

/-- Witness for C7: empty GL data with a `from_date` filter and opening
balance 5 produces an Opening Balance row followed by a Closing Balance
row carrying the same balance. -/
theorem process_data_spec_witness :
    truthyStr (some "2024-01-01") = true
    ∧ (process_data ⟨fun _ => none, fun _ => none⟩ [] 5
        ⟨some "2024-01-01", none, none, none, none⟩).head?
        = some (openingRow ⟨some "2024-01-01", none, none, none, none⟩ 5)
    ∧ ∃ cl, (process_data ⟨fun _ => none, fun _ => none⟩ [] 5
        ⟨some "2024-01-01", none, none, none, none⟩).getLast? = some cl
        ∧ cl.voucher_type = "Closing Balance" ∧ cl.debit = 0 ∧ cl.credit = 0
        ∧ cl.balance = 5
            + (((process_data ⟨fun _ => none, fun _ => none⟩ [] 5
                ⟨some "2024-01-01", none, none, none, none⟩).filter isTxnRow).map
                (fun p => p.debit - p.credit)).sum :=
  ⟨rfl,
    (process_data_spec ⟨fun _ => none, fun _ => none⟩ [] 5
      ⟨some "2024-01-01", none, none, none, none⟩).2.1 rfl,
    (process_data_spec ⟨fun _ => none, fun _ => none⟩ [] 5
      ⟨some "2024-01-01", none, none, none, none⟩).2.2.2
      (by intro r hr; cases hr) (by decide)⟩

/-! ## Lemmas: the overdue-invoice scan -/

theorem overdueSubject_contains (env : TaskEnv) (inv : Invoice) :
    strContains (overdueSubject env inv) "Overdue" = true := by
  unfold overdueSubject
  exact strContains_keepLeft _ (strContains_keepLeft _ (strContains_keepLeft _
    (strContains_keepLeft _ (strContains_keepLeft _ (by decide)))))

theorem notified_mono {st : List NLog} (more : List NLog) {dt dn pat : String}
    (h : has_been_notified_ever st dt dn pat = true) :
    has_been_notified_ever (st ++ more) dt dn pat = true := by
  unfold has_been_notified_ever at h ⊢
  rw [List.any_append, h]
  rfl

theorem notified_after_logs (env : TaskEnv) (inv : Invoice) (st : List NLog)
    (hL : ¬ (overdueLogs env inv).isEmpty = true) :
    has_been_notified_ever (st ++ overdueLogs env inv)
      "Sales Invoice" inv.name "Overdue" = true := by
  unfold has_been_notified_ever
  rw [List.any_append]
  have hy : (overdueLogs env inv).any (fun l =>
      l.document_type == "Sales Invoice" && l.document_name == inv.name
        && strContains l.subject "Overdue") = true := by
    unfold overdueLogs at hL ⊢
    cases hu : env.users.filter env.validUser with
    | nil =>
      rw [hu] at hL
      exact absurd rfl hL
    | cons u us =>
      rw [List.map_cons, List.any_cons]
      have hpred : ((⟨"Sales Invoice", inv.name, overdueSubject env inv⟩ : NLog).document_type
            == "Sales Invoice"
          && (⟨"Sales Invoice", inv.name, overdueSubject env inv⟩ : NLog).document_name
            == inv.name
          && strContains (⟨"Sales Invoice", inv.name, overdueSubject env inv⟩ : NLog).subject
            "Overdue") = true := by
        simp [overdueSubject_contains env inv]
      rw [hpred]
      rfl
  rw [hy]
  simp

theorem overdueGo_state (env : TaskEnv) :
    ∀ (invs : List Invoice) (st : List NLog),
      ∃ more, (overdueGo env invs st).1 = st ++ more
  | [], st => ⟨[], (List.append_nil st).symm⟩
  | inv :: rest, st => by
    unfold overdueGo
    split_ifs with h hL
    · exact overdueGo_state env rest st
    · rcases overdueGo_state env rest (st ++ overdueLogs env inv) with ⟨m, hm⟩
      exact ⟨overdueLogs env inv ++ m, by dsimp only; rw [hm, List.append_assoc]⟩
    · rcases overdueGo_state env rest (st ++ overdueLogs env inv) with ⟨m, hm⟩
      exact ⟨overdueLogs env inv ++ m, by dsimp only; rw [hm, List.append_assoc]⟩

theorem overdueGo_count (env : TaskEnv) (nm : String) :
    ∀ (invs : List Invoice) (st : List NLog),
      ((overdueGo env invs st).2.count nm ≤ 1)
      ∧ (has_been_notified_ever st "Sales Invoice" nm "Overdue" = true →
          (overdueGo env invs st).2.count nm = 0)
      ∧ ((overdueGo env invs st).2.count nm = 1 →
          has_been_notified_ever (overdueGo env invs st).1
            "Sales Invoice" nm "Overdue" = true)
  | [], st => by
    refine ⟨by simp [overdueGo], fun _ => by simp [overdueGo], ?_⟩
    intro h
    simp [overdueGo] at h
  | inv :: rest, st => by
    unfold overdueGo
    split_ifs with h hL
    · exact overdueGo_count env nm rest st
    · have ih := overdueGo_count env nm rest (st ++ overdueLogs env inv)
      have hstL : st ++ overdueLogs env inv = st := by
        rw [List.isEmpty_iff.mp hL, List.append_nil]
      dsimp only
      refine ⟨ih.1, ?_, ih.2.2⟩
      intro hnot
      exact ih.2.1 (by rw [hstL]; exact hnot)
    · have ih := overdueGo_count env nm rest (st ++ overdueLogs env inv)
      have hafter := notified_after_logs env inv st hL
      dsimp only
      by_cases hnm : inv.name = nm
      · subst hnm
        have hzero : (overdueGo env rest (st ++ overdueLogs env inv)).2.count
            inv.name = 0 := ih.2.1 hafter
        have hcount : (inv.name :: (overdueGo env rest
            (st ++ overdueLogs env inv)).2).count inv.name = 1 := by
          rw [List.count_cons, hzero]
          simp
        refine ⟨by rw [hcount], ?_, ?_⟩
        · intro hnot
          exact absurd hnot (by simp [h])
        · intro _
          rcases overdueGo_state env rest (st ++ overdueLogs env inv) with ⟨m, hm⟩
          rw [hm]
          exact notified_mono m hafter
      · have hcount : (inv.name :: (overdueGo env rest
            (st ++ overdueLogs env inv)).2).count nm
            = (overdueGo env rest (st ++ overdueLogs env inv)).2.count nm := by
          rw [List.count_cons]
          simp [hnm]
        refine ⟨by rw [hcount]; exact ih.1, ?_, ?_⟩
        · intro hnot
          rw [hcount]
          exact ih.2.1 (notified_mono _ hnot)
        · intro h1
          rw [hcount] at h1
          exact ih.2.2 h1

theorem overdueRuns_state :
    ∀ (inputs : List (TaskEnv × Int × List Invoice)) (st : List NLog),
      ∃ more, (overdueRuns inputs st).1 = st ++ more
  | [], st => ⟨[], (List.append_nil st).symm⟩
  | (env, d, tbl) :: rest, st => by
    unfold overdueRuns
    dsimp only
    rcases overdueRuns_state rest (check_and_notify_overdue_invoices env d tbl st).1
      with ⟨m2, hm2⟩
    rcases overdueGo_state env (overdueSelect d tbl) st with ⟨m1, hm1⟩
    refine ⟨m1 ++ m2, ?_⟩
    rw [hm2]
    unfold check_and_notify_overdue_invoices
    rw [hm1, List.append_assoc]

theorem overdueRuns_count (nm : String) :
    ∀ (inputs : List (TaskEnv × Int × List Invoice)) (st : List NLog),
      ((overdueRuns inputs st).2.count nm ≤ 1)
      ∧ (has_been_notified_ever st "Sales Invoice" nm "Overdue" = true →
          (overdueRuns inputs st).2.count nm = 0)
      ∧ ((overdueRuns inputs st).2.count nm = 1 →
          has_been_notified_ever (overdueRuns inputs st).1
            "Sales Invoice" nm "Overdue" = true)
  | [], st => by
    refine ⟨by simp [overdueRuns], fun _ => by simp [overdueRuns], ?_⟩
    intro h
    simp [overdueRuns] at h
  | (env, d, tbl) :: rest, st => by
    unfold overdueRuns check_and_notify_overdue_invoices
    dsimp only
    have hg := overdueGo_count env nm (overdueSelect d tbl) st
    have hr := overdueRuns_count nm rest (overdueGo env (overdueSelect d tbl) st).1
    rw [List.count_append]
    have hstate : ∀ (hnot : has_been_notified_ever st "Sales Invoice" nm "Overdue" = true),
        has_been_notified_ever (overdueGo env (overdueSelect d tbl) st).1
          "Sales Invoice" nm "Overdue" = true := by
      intro hnot
      rcases overdueGo_state env (overdueSelect d tbl) st with ⟨m, hm⟩
      rw [hm]
      exact notified_mono m hnot
    refine ⟨?_, ?_, ?_⟩
    · rcases Nat.lt_or_ge ((overdueGo env (overdueSelect d tbl) st).2.count nm) 1
        with h1 | h1
      · have h0 : (overdueGo env (overdueSelect d tbl) st).2.count nm = 0 := by omega
        rw [h0]
        simpa using hr.1
      · have h1' : (overdueGo env (overdueSelect d tbl) st).2.count nm = 1 :=
          Nat.le_antisymm hg.1 h1
        have h2 := hr.2.1 (hg.2.2 h1')
        rw [h1', h2]
    · intro hnot
      rw [hg.2.1 hnot, hr.2.1 (hstate hnot)]
    · intro hsum
      rcases Nat.lt_or_ge ((overdueGo env (overdueSelect d tbl) st).2.count nm) 1
        with h1 | h1
      · have h0 : (overdueGo env (overdueSelect d tbl) st).2.count nm = 0 := by omega
        rw [h0] at hsum
        exact hr.2.2 (by omega)
      · have h1' : (overdueGo env (overdueSelect d tbl) st).2.count nm = 1 :=
          Nat.le_antisymm hg.1 h1
        have hnot := hg.2.2 h1'
        rcases overdueRuns_state rest (overdueGo env (overdueSelect d tbl) st).1
          with ⟨m2, hm2⟩
        rw [hm2]
        exact notified_mono m2 hnot

/-- C5: the overdue scan's query selects exactly the submitted invoices
with positive outstanding amount and due date strictly before today; an
invoice for which a Notification Log with an `Overdue` subject already
exists is never sent again in a run; and across any sequence of runs a
given invoice name is sent (i.e. gets Notification Logs inserted) at most
once. -/
theorem overdue_scan_spec :
    (∀ (today : Int) (tbl : List Invoice) (inv : Invoice),
        inv ∈ overdueSelect today tbl
          ↔ inv ∈ tbl ∧ inv.docstatus = 1 ∧ inv.outstanding_amount > 0
              ∧ inv.due_date < today)
    ∧ (∀ (env : TaskEnv) (today : Int) (tbl : List Invoice) (st : List NLog)
          (nm : String),
        has_been_notified_ever st "Sales Invoice" nm "Overdue" = true →
        (check_and_notify_overdue_invoices env today tbl st).2.count nm = 0)
    ∧ (∀ (inputs : List (TaskEnv × Int × List Invoice)) (st : List NLog)
          (nm : String),
        (overdueRuns inputs st).2.count nm ≤ 1) := by
  refine ⟨?_, ?_, ?_⟩
  · intro today tbl inv
    unfold overdueSelect
    rw [List.mem_filter]
    simp [and_assoc]
  · intro env today tbl st nm h
    exact (overdueGo_count env nm (overdueSelect today tbl) st).2.1 h
  · intro inputs st nm
    exact (overdueRuns_count nm inputs st).1

/-- Witness for C5: an invoice with an existing Overdue notification log
is not notified again. -/
theorem overdue_scan_spec_witness :
    has_been_notified_ever [⟨"Sales Invoice", "INV-1", "Reminder: Overdue payment"⟩]
      "Sales Invoice" "INV-1" "Overdue" = true
    ∧ (check_and_notify_overdue_invoices
        ⟨["Administrator"], fun _ => true, fun _ => "$10", fun _ => "2024-01-01"⟩ 100
        [⟨"INV-1", "CUST", 50, 10, 1⟩]
        [⟨"Sales Invoice", "INV-1", "Reminder: Overdue payment"⟩]).2.count "INV-1"
      = 0 :=
  ⟨by decide,
    overdue_scan_spec.2.1
      ⟨["Administrator"], fun _ => true, fun _ => "$10", fun _ => "2024-01-01"⟩ 100
      [⟨"INV-1", "CUST", 50, 10, 1⟩]
      [⟨"Sales Invoice", "INV-1", "Reminder: Overdue payment"⟩] "INV-1" (by decide)⟩

end Rasiin
